import Mathlib

/-!
Verification of the LHI Directory Monitor backend (src/server/index.js).

The JavaScript source is shallowly embedded: JS strings become `List Char`,
the Express handlers become pure functions over explicit environment records
that stand for the file system, the OS process table and the spawned-process
effects, and the three pure helpers (`parseTextManifest`, `parseExcludes`,
`buildTreeFromFiles`) are translated line by line.
-/

namespace DirMon

/-- JS strings are embedded as lists of characters. -/
abbrev Str := List Char

/-- Character list of a Lean string literal (used to write embedded literals). -/
def strL (s : String) : Str := s.data

/-- The whitespace class used by JS `trim` and `\s` (ASCII part; the source
manipulates ASCII text only). -/
def isJsSpace (c : Char) : Bool :=
  (c == ' ') || (c == '\t') || (c == '\n') || (c == '\r') || (c == '\x0b') || (c == '\x0c')

/-- JS `String.prototype.startsWith`. -/
def jsStartsWith : Str → Str → Bool
  | [], _ => true
  | _ :: _, [] => false
  | p :: ps, c :: cs => (p == c) && jsStartsWith ps cs

/-- JS `String.prototype.endsWith`. -/
def jsEndsWith (suf s : Str) : Bool :=
  jsStartsWith suf.reverse s.reverse

/-- Longest prefix of characters satisfying `p` (JS regex greedy character run). -/
def takeW (p : Char → Bool) : Str → Str
  | [] => []
  | c :: cs => if p c then c :: takeW p cs else []

/-- Remainder after `takeW` (JS regex greedy character run). -/
def dropW (p : Char → Bool) : Str → Str
  | [] => []
  | c :: cs => if p c then dropW p cs else c :: cs

/-- JS `trim`, left part. -/
def jsTrimLeft : Str → Str := dropW isJsSpace

/-- JS `trim`, right part. -/
def jsTrimRight (s : Str) : Str := (dropW isJsSpace s.reverse).reverse

/-- JS `String.prototype.trim`. -/
def jsTrim (s : Str) : Str := jsTrimRight (jsTrimLeft s)

/-- JS `String.prototype.split(sep)` for a one-character separator. -/
def splitOnChar (sep : Char) : Str → List Str
  | [] => [[]]
  | c :: cs =>
    match splitOnChar sep cs with
    | [] => [[]]
    | l :: ls => if c == sep then [] :: l :: ls else (c :: l) :: ls

/-- Glue a list of pieces back together with a one-character separator
(inverse of `splitOnChar`; used to render multi-line documents). -/
def interC (sep : Char) : List Str → Str
  | [] => []
  | [x] => x
  | x :: y :: xs => x ++ sep :: interC sep (y :: xs)

/-- Decimal digit test (JS regex `\d`). -/
def isDigitCh (c : Char) : Bool := ('0' ≤ c) && (c ≤ '9')

/-- Numeric value of a digit string (JS `parseInt(digits, 10)` on a `\d+` capture). -/
def digitsToNat (s : Str) : Nat :=
  s.foldl (fun n c => n * 10 + (c.toNat - '0'.toNat)) 0

/-- JS `parseInt(s)` as used on `pgrep` output lines: skip leading whitespace,
optional sign, then a run of decimal digits; no digits gives `NaN` (`none`). -/
def jsParseInt (s : Str) : Option Int :=
  let s1 := jsTrimLeft s
  let neg := s1.head? == some '-'
  let s2 := if s1.head? == some '-' || s1.head? == some '+' then s1.tail else s1
  let ds := takeW isDigitCh s2
  if ds = [] then none
  else if neg then some (-(digitsToNat ds : Int)) else some (digitsToNat ds)

/-- JS `Array.prototype.includes` / `String.prototype.includes` (substring). -/
def containsSub (needle : Str) : Str → Bool
  | [] => jsStartsWith needle []
  | c :: cs => jsStartsWith needle (c :: cs) || containsSub needle cs

/-- Last `n` elements (JS `Array.prototype.slice(-n)` for positive `n`). -/
def takeLast (n : Nat) (l : List α) : List α := l.drop (l.length - n)

/-! ## Exclude patterns (src/server/index.js, `parseExcludes`) -/

/-- One parsed exclude pattern: the trimmed line and whether it ends in `/`. -/
structure ExcludePattern where
  pattern : Str
  isDirectory : Bool
deriving DecidableEq, Repr

/-- Embeds `parseExcludes(content)`: split into lines, drop blank and `#` lines,
keep the trimmed line together with its trailing-slash directory flag. -/
def parseExcludes (content : Str) : List ExcludePattern :=
  (splitOnChar '\n' content).foldl
    (fun patterns line =>
      let trimmed := jsTrim line
      if trimmed = [] then patterns
      else if jsStartsWith (strL ("#")) trimmed then patterns
      else patterns ++ [{ pattern := trimmed, isDirectory := jsEndsWith (strL ("/")) trimmed }])
    []

/-- What the excludes route can observe of the watched directory: the contents
of `.lhi_excludes` and `.gitignore` when those files exist (`none` models the
`fs.access` failure for a missing file). -/
structure ExcludesEnv where
  lhiExcludes : Option Str
  gitignore : Option Str

/-- Response of the excludes route: patterns plus the name of the source file
(`null` in JS when neither file exists). -/
structure ExcludesRes where
  patterns : List ExcludePattern
  source : Option Str
deriving DecidableEq, Repr

/-- Embeds the handler of `GET /api/excludes/*`: try `.lhi_excludes` first,
fall back to `.gitignore`, otherwise report no patterns and a null source.
A missing file is caught and never surfaces as an error response. -/
def excludesHandler (env : ExcludesEnv) : ExcludesRes :=
  match env.lhiExcludes with
  | some content => { patterns := parseExcludes content, source := some (strL (".lhi_excludes")) }
  | none =>
    match env.gitignore with
    | some content => { patterns := parseExcludes content, source := some (strL (".gitignore")) }
    | none => { patterns := [], source := none }

/-! ## Manifest parsing (src/server/index.js, `parseTextManifest`) -/

/-- A parsed file-listing record: `{path, type: "file", size, modified}`. -/
structure FileRecord where
  path : Str
  type : Str
  size : Nat
  modified : Str
deriving DecidableEq, Repr

/-- Tree node built by `buildTreeFromFiles`: cumulative path, `"file"` or
`"directory"` type, optional size and modified fields (set only at a record's
final segment) and an optional children array (absent exactly on file nodes). -/
inductive TreeNode : Type where
  | mk (path : Str) (type : Str) (size : Option Nat) (modified : Option Str)
      (children : Option (List TreeNode)) : TreeNode
deriving Repr

/-- Cumulative path of a node. -/
def TreeNode.path : TreeNode → Str
  | .mk p _ _ _ _ => p

/-- Node type string (`"file"` or `"directory"`). -/
def TreeNode.type : TreeNode → Str
  | .mk _ t _ _ _ => t

/-- Size field of a node. -/
def TreeNode.size : TreeNode → Option Nat
  | .mk _ _ s _ _ => s

/-- Modified field of a node. -/
def TreeNode.modified : TreeNode → Option Str
  | .mk _ _ _ m _ => m

/-- Children array of a node (`none` models an `undefined` children field). -/
def TreeNode.children : TreeNode → Option (List TreeNode)
  | .mk _ _ _ _ c => c

/-- The literal `"file"`. -/
def tyFile : Str := strL ("file")

/-- The literal `"directory"`. -/
def tyDirectory : Str := strL ("directory")

/-- One step of the cumulative-path accumulator in the source:
`currentPath = currentPath ? currentPath + "/" + part : part`. -/
def joinStep (cur seg : Str) : Str :=
  if cur = [] then seg else cur ++ '/' :: seg

/-- The cumulative path reached after consuming `segs` starting from `cur`. -/
def joinFrom (cur : Str) (segs : List Str) : Str :=
  segs.foldl joinStep cur

/-- Replace the first node whose path is `p` (models mutating the array entry
that `Array.prototype.find` returned). -/
def replaceFirst (p : Str) (n' : TreeNode) : List TreeNode → List TreeNode
  | [] => []
  | n :: ns => if n.path = p then n' :: ns else n :: replaceFirst p n' ns

/-- The walk/insert loop inside `buildTreeFromFiles` for one record `file`,
processing the remaining path segments against the current sibling array:
search the level for the cumulative path; descend into an existing node's
children when they exist, stay on the same level when the node is a file
(`children` undefined), and otherwise create the node (`file` kind only at the
record's last segment when the record is not directory-typed). -/
def processParts (file : FileRecord) : List Str → Str → List TreeNode → List TreeNode
  | [], _, level => level
  | part :: rest, cur, level =>
    let newPath := joinStep cur part
    let isLast := rest = []
    match level.find? (fun e => e.path = newPath) with
    | some existing =>
      match existing.children with
      | some cs =>
        replaceFirst newPath
          (TreeNode.mk existing.path existing.type existing.size existing.modified
            (some (processParts file rest newPath cs))) level
      | none => processParts file rest newPath level
    | none =>
      if isLast && !(file.type = tyDirectory) then
        processParts file rest newPath
          (level ++ [TreeNode.mk newPath tyFile (some file.size) (some file.modified) none])
      else
        level ++ [TreeNode.mk newPath tyDirectory
          (if isLast then some file.size else none)
          (if isLast then some file.modified else none)
          (some (processParts file rest newPath []))]

/-- Embeds `buildTreeFromFiles(files)`. -/
def buildTreeFromFiles (files : List FileRecord) : List TreeNode :=
  files.foldl (fun tree file => processParts file (splitOnChar '/' file.path) [] tree) []

/-- Consume a fixed literal at the head of the input (an anchored literal part
of a JS regex); returns the rest on success. -/
def expectStr (lit s : Str) : Option Str :=
  if jsStartsWith lit s then some (s.drop lit.length) else none

/-- Consume `\s+` followed by a non-whitespace continuation: with a greedy run
this is exactly "at least one whitespace character, then drop the whole run". -/
def ws1 : Str → Option Str
  | [] => none
  | c :: cs => if isJsSpace c then some (dropW isJsSpace (c :: cs)) else none

/-- The tail `\s+(.+)$` of the file-record regex, returning the captured group.
Backtracking of the greedy `\s+` against `.+$` resolves to: at least one
leading whitespace character, keep at least one character for the capture, and
the capture may not contain a line terminator (`.` and `$` both reject them). -/
def matchModifiedTail (r : Str) : Option Str :=
  let wsLen := (takeW isJsSpace r).length
  if wsLen = 0 then none
  else
    let m := r.drop (min wsLen (r.length - 1))
    if m = [] then none
    else if m.contains '\n' || m.contains '\r' then none
    else some m

/-- Embeds the file-listing line match
`/^"([^"]+)"\s+\((\d+)\s+bytes\)\s+-\s+Modified:\s+(.+)$/` together with the
record construction `{path, type: "file", size: parseInt(size,10),
modified: modified.trim()}`. Every quantifier here is greedy over a character
class disjoint from what follows, so the regex is this deterministic scan. -/
def matchFileLine (line : Str) : Option FileRecord := do
  let s1 ← expectStr (strL ("\"")) line
  let path := takeW (fun c => !(c == '"')) s1
  let s2 := dropW (fun c => !(c == '"')) s1
  if path = [] then none else do
  let s3 ← expectStr (strL ("\"")) s2
  let s4 ← ws1 s3
  let s5 ← expectStr (strL ("(")) s4
  let ds := takeW isDigitCh s5
  let s6 := dropW isDigitCh s5
  if ds = [] then none else do
  let s7 ← ws1 s6
  let s8 ← expectStr (strL ("bytes)")) s7
  let s9 ← ws1 s8
  let s10 ← expectStr (strL ("-")) s9
  let s11 ← ws1 s10
  let s12 ← expectStr (strL ("Modified:")) s11
  let md ← matchModifiedTail s12
  some { path := path, type := tyFile, size := digitsToNat ds, modified := jsTrim md }

/-- Embeds the summary matches `/^Total Files:\s*(\d+)/` and
`/^Total Directories:\s*(\d+)/` (parameterised by the label; the regexes are
anchored at the start only, so trailing text is ignored). -/
def matchTotalCount (label line : Str) : Option Nat :=
  match expectStr label line with
  | none => none
  | some r =>
    let ds := takeW isDigitCh (dropW isJsSpace r)
    if ds = [] then none else some (digitsToNat ds)

/-- Mutable locals of the `parseTextManifest` line loop. -/
structure PState where
  timestamp : Option Str
  directory : Option Str
  total_files : Nat
  total_directories : Nat
  files : List FileRecord
  inFileListing : Bool
  inSummary : Bool

/-- Initial parser state (`result` fields zeroed, both section flags false). -/
def initPState : PState :=
  { timestamp := none, directory := none, total_files := 0, total_directories := 0,
    files := [], inFileListing := false, inSummary := false }

/-- The two trailing `if`s of the loop body (summary parse, then file-entry
parse); reached for any line that did not `continue` out of the header chain. -/
def pstepTail (st : PState) (line : Str) : PState :=
  let st1 :=
    if st.inSummary && !(jsTrim line = []) then
      let stf :=
        match matchTotalCount (strL ("Total Files:")) line with
        | some n => { st with total_files := n }
        | none => st
      match matchTotalCount (strL ("Total Directories:")) line with
      | some n => { stf with total_directories := n }
      | none => stf
    else st
  if st1.inFileListing && !(jsTrim line = []) && !(jsStartsWith (strL ("Summary:")) line) then
    match matchFileLine line with
    | some r => { st1 with files := st1.files ++ [r] }
    | none => st1
  else st1

/-- One iteration of the `for (const line of lines)` loop of
`parseTextManifest`. The `Timestamp:`/`Directory:` branches fall through to
the section ifs (no `continue` in the source); `line.replace(prefix, "")` on a
line starting with that text is dropping its first 10 characters. -/
def pstep (st : PState) (line : Str) : PState :=
  if jsStartsWith (strL ("Timestamp:")) line then
    pstepTail { st with timestamp := some (jsTrim (line.drop 10)) } line
  else if jsStartsWith (strL ("Directory:")) line then
    pstepTail { st with directory := some (jsTrim (line.drop 10)) } line
  else if jsStartsWith (strL ("File Listing:")) line then
    { st with inFileListing := true, inSummary := false }
  else if jsStartsWith (strL ("Summary:")) line then
    { st with inFileListing := false, inSummary := true }
  else if jsStartsWith (strL ("-------------")) line || jsStartsWith (strL ("--------")) line then
    st
  else pstepTail st line

/-- Run the scan loop of `parseTextManifest` over the split lines. -/
def parseManifestState (content : Str) : PState :=
  (splitOnChar '\n' content).foldl pstep initPState

/-- The `currentPath` accumulation loop that adds every proper slash-separated
path piece of one file path to the directory set (a deduplicating list stands
for the JS `Set`; the caller passes `parts.dropLast`, matching
`for (let i = 0; i < parts.length - 1; i++)`). -/
def addPfxAux : Str → List Str → List Str → List Str
  | _, dirs, [] => dirs
  | cur, dirs, p :: ps =>
    let cur2 := joinStep cur p
    addPfxAux cur2 (if cur2 ∈ dirs then dirs else dirs ++ [cur2]) ps

/-- The set of distinct intermediate directories implied by the file listing
(the fallback source for `total_directories`). -/
def dirSetOfFiles (files : List FileRecord) : List Str :=
  files.foldl (fun dirs f => addPfxAux [] dirs (splitOnChar '/' f.path).dropLast) []

/-- The parsed representation returned by `parseTextManifest`. -/
structure ManifestDocument where
  directory : Option Str
  timestamp : Option Str
  total_files : Nat
  total_directories : Nat
  tree : List TreeNode

/-- Embeds `parseTextManifest(content)`: scan the lines, then fall back to the
listing-derived counts when the summary produced zeros, and build the tree. -/
def parseTextManifest (content : Str) : ManifestDocument :=
  let st := parseManifestState content
  { directory := st.directory,
    timestamp := st.timestamp,
    total_files := if st.total_files = 0 then st.files.length else st.total_files,
    total_directories :=
      if st.total_directories = 0 ∧ 0 < st.files.length then (dirSetOfFiles st.files).length
      else st.total_directories,
    tree := buildTreeFromFiles st.files }

/-! ## Route handlers (environments stand for the file system and process table) -/

/-- JS `x || y` where `x` is a string or `null` (empty string is falsy). -/
def jsOrStr (o : Option Str) (dflt : Str) : Str :=
  match o with
  | some s => if s = [] then dflt else s
  | none => dflt

/-- JSON response of `GET /api/manifest/*` (`status` is the HTTP status;
`res.json` without `res.status` responds 200). -/
structure ManifestRes where
  status : Nat
  directory : Str
  timestamp : Option Str
  total_files : Nat
  total_directories : Nat
  tree : List TreeNode
  error : Option Str

/-- Embeds the handler of `GET /api/manifest/*`. `manifest` is the manifest
file's contents, `none` when `fs.access` rejects (missing file); `nowIso`
models `new Date().toISOString()`. -/
def manifestHandler (watchPath : Str) (manifest : Option Str) (nowIso : Str) : ManifestRes :=
  match manifest with
  | none =>
    { status := 200, directory := watchPath, timestamp := none,
      total_files := 0, total_directories := 0, tree := [],
      error := some (strL ("No manifest file found. Click Refresh to generate one.")) }
  | some content =>
    let parsed := parseTextManifest content
    { status := 200,
      directory := jsOrStr parsed.directory watchPath,
      timestamp := some (jsOrStr parsed.timestamp nowIso),
      total_files := parsed.total_files,
      total_directories := parsed.total_directories,
      tree := parsed.tree,
      error := none }

/-- JSON response of `POST /api/registry/add`. `invoked` records whether the
handler reached the `execAsync` call of the registration script. -/
structure AddRes where
  status : Nat
  error : Option Str
  message : Option Str
  invoked : Bool

/-- Embeds the handler of `POST /api/registry/add`: reject a missing (or, by
JS truthiness, empty) `directory` in the request body, then reject a path that
fails `fs.access`, and only then delegate to the registry script (`execRes`
models that call: `.ok` output or a thrown error message). -/
def registryAddHandler (directory : Option Str) (fsExists : Str → Bool)
    (execRes : Except Str Str) : AddRes :=
  match directory with
  | none =>
    { status := 400, error := some (strL ("Directory path is required")),
      message := none, invoked := false }
  | some d =>
    if d = [] then
      { status := 400, error := some (strL ("Directory path is required")),
        message := none, invoked := false }
    else if !(fsExists d) then
      { status := 400, error := some (strL ("Directory does not exist: ") ++ d),
        message := none, invoked := false }
    else
      match execRes with
      | .ok _ =>
        { status := 200, error := none,
          message := some (strL ("Directory added: ") ++ d), invoked := true }
      | .error e =>
        { status := 500, error := some e, message := none, invoked := true }

/-- JSON response of `GET /api/status/*`. -/
structure StatusRes where
  running : Bool
  pid : Option Int
  watchedPath : Str
  uptime : Option Str
  lastManifestUpdate : Option Str

/-- Embeds the handler of `GET /api/status/*`. `pgrepOut` is the stdout of
`pgrep -f "fswatch.*<path>" || true`; `psResult` is the stdout of the `ps -o
etime=` lookup, `none` when that lookup threw; `manifestMtime` the manifest's
mtime ISO string when `fs.stat` succeeded. -/
def statusHandler (watchPath : Str) (pgrepOut : Str) (psResult : Option Str)
    (manifestMtime : Option Str) : StatusRes :=
  let pids := (splitOnChar '\n' (jsTrim pgrepOut)).filter (fun s => !(s = []))
  let running := decide (0 < pids.length)
  { running := running,
    pid :=
      if running then
        match pids with
        | p :: _ => jsParseInt p
        | [] => none
      else none,
    watchedPath := watchPath,
    uptime :=
      match pids with
      | p :: _ =>
        if running && !(p = []) then
          match psResult with
          | some psOut => some (jsTrim psOut)
          | none => none
        else none
      | [] => none,
    lastManifestUpdate := manifestMtime }

/-- JSON response of `POST /api/start/*`. `spawned` records whether the
handler spawned the detached monitor process, `waitedMs` the settle delay it
awaited before responding. -/
structure StartRes where
  status : Nat
  success : Bool
  message : Str
  spawned : Bool
  waitedMs : Nat

/-- Embeds the handler of `POST /api/start/*`: when the `pgrep` probe output
is non-blank the handler returns the already-running success without spawning;
otherwise it spawns the detached monitor and waits 2000 ms. (The rare spawn
exception path is not modelled; both modelled paths respond 200.) -/
def startHandler (watchPath : Str) (pgrepOut : Str) : StartRes :=
  if !(jsTrim pgrepOut = []) then
    { status := 200, success := true,
      message := strL ("Monitor already running for this directory"),
      spawned := false, waitedMs := 0 }
  else
    { status := 200, success := true,
      message := strL ("Monitor started for ") ++ watchPath,
      spawned := true, waitedMs := 2000 }

/-- One extracted change entry `{timestamp, file}`. -/
structure RecentChange where
  timestamp : Str
  file : Str
deriving DecidableEq, Repr

/-- Node `path.basename`: last path portion, ignoring trailing slashes. -/
def jsBasename (p : Str) : Str :=
  (takeW (fun c => !(c == '/')) (dropW (fun c => c == '/') p.reverse)).reverse

/-- `dirName.toLowerCase().replace(/[^a-z0-9]/g, "_")`. -/
def normalizeDirName (dirName : Str) : Str :=
  dirName.map (fun c =>
    let lc := c.toLower
    if (('a' ≤ lc) && (lc ≤ 'z')) || (('0' ≤ lc) && (lc ≤ '9')) then lc else '_')

/-- Insert into a list sorted descending by `key`, before the first element
whose key is not larger (so equal keys keep their original relative order). -/
def insDesc (key : α → Int) (x : α) : List α → List α
  | [] => [x]
  | y :: ys => if key x < key y then y :: insDesc key x ys else x :: y :: ys

/-- Stable descending sort by `key` (models the stable JS
`sort((a, b) => b.mtime - a.mtime)`). -/
def sortByKeyDesc (key : α → Int) : List α → List α
  | [] => []
  | x :: xs => insDesc key x (sortByKeyDesc key xs)

/-- The change-line regex `/\[([^\]]+)\]\[fswatch\] Change detected: (.+)/`
anchored at the current position. -/
def matchChangeAt (s : Str) : Option (Str × Str) :=
  match s with
  | '[' :: rest =>
    let ts := takeW (fun c => !(c == ']')) rest
    let r2 := dropW (fun c => !(c == ']')) rest
    if ts = [] then none
    else
      match expectStr (strL ("][fswatch] Change detected: ")) r2 with
      | none => none
      | some r3 =>
        let f := takeW (fun c => !(c == '\n' || c == '\r')) r3
        if f = [] then none else some (ts, f)
  | _ => none

/-- Unanchored search with the change-line regex (`String.prototype.match`
tries every start position, leftmost match wins). -/
def searchChange : Str → Option (Str × Str)
  | [] => none
  | c :: cs =>
    match matchChangeAt (c :: cs) with
    | some r => some r
    | none => searchChange cs

/-- What `GET /api/changes/*` can observe: the entries of the monitor logs
root (`none` when `fs.readdir` threw, e.g. no logs directory), each log
directory's mtime, its file listing, and each log file's contents. -/
structure ChangesEnv where
  watchPath : Str
  logDirs : Option (List Str)
  dirMtime : Str → Int
  filesIn : Str → List Str
  readLog : Str → Str → Str
  manifestMtime : Option Str

/-- JSON response of `GET /api/changes/*`. -/
structure ChangesRes where
  status : Nat
  recentChanges : List RecentChange
  manifestLastModified : Option Str

/-- Embeds the handler of `GET /api/changes/*`: find log directories whose
name starts with `ldm_` and contains the normalised basename, pick the most
recently modified one, read its first `.log` file, keep the lines containing
the change marker, take the last five, extract `{timestamp, file}` from each
line that fully matches the change regex, drop the rest, and reverse. Every
absence (no logs directory, no matching directory, no log file) leaves the
list empty inside the catch-protected block. -/
def changesHandler (env : ChangesEnv) : ChangesRes :=
  let dirName := jsBasename env.watchPath
  let recent : List RecentChange :=
    match env.logDirs with
    | none => []
    | some logDirs =>
      let matching := logDirs.filter (fun d =>
        jsStartsWith (strL ("ldm_")) d && containsSub (normalizeDirName dirName) d)
      if 0 < matching.length then
        match sortByKeyDesc env.dirMtime matching with
        | [] => []
        | latestDir :: _ =>
          match (env.filesIn latestDir).find? (fun f => jsEndsWith (strL (".log")) f) with
          | none => []
          | some logFile =>
            let content := env.readLog latestDir logFile
            let changeLines := (splitOnChar '\n' content).filter
              (fun l => containsSub (strL ("[fswatch] Change detected:")) l)
            ((takeLast 5 changeLines).filterMap (fun l =>
              (searchChange l).map (fun pr => ({ timestamp := pr.1, file := pr.2 } : RecentChange)))).reverse
      else []
  { status := 200, recentChanges := recent, manifestLastModified := env.manifestMtime }

/-! ## Measurements over built trees -/

/-- Paths of the file-typed nodes of a forest, in traversal order. -/
def filePathsL : List TreeNode → List Str
  | [] => []
  | TreeNode.mk p t _ _ none :: ns =>
    (if t = tyFile then [p] else []) ++ filePathsL ns
  | TreeNode.mk p t _ _ (some cs) :: ns =>
    (if t = tyFile then [p] else []) ++ (filePathsL cs ++ filePathsL ns)

/-- Paths of the directory-typed nodes of a forest, in traversal order. -/
def dirPathsL : List TreeNode → List Str
  | [] => []
  | TreeNode.mk p t _ _ none :: ns =>
    (if t = tyDirectory then [p] else []) ++ dirPathsL ns
  | TreeNode.mk p t _ _ (some cs) :: ns =>
    (if t = tyDirectory then [p] else []) ++ (dirPathsL cs ++ dirPathsL ns)

/-- The leaf-count aggregation of the spec: the number of file-typed nodes in
the forest. -/
def leafCount (l : List TreeNode) : Nat := (filePathsL l).length

/-- Immutable header of a node: everything except the children array
(the source never reassigns these fields after object creation). -/
def headersL : List TreeNode → List (Str × Str × Option Nat × Option Str)
  | [] => []
  | TreeNode.mk p t sz md none :: ns => (p, t, sz, md) :: headersL ns
  | TreeNode.mk p t sz md (some cs) :: ns => (p, t, sz, md) :: (headersL cs ++ headersL ns)

/-- A path piece contains no separator. -/
def slashFree (s : Str) : Prop := '/' ∉ s

/-- The slash-separated segments of a record path (`file.path.split("/")`). -/
def pathSegs (p : Str) : List Str := splitOnChar '/' p

/-! ## Structural invariants of built trees

`WFLevel` is the unconditional well-formedness of every forest the builder
produces: sibling paths are pairwise distinct, file nodes carry size and
modified and have no children array, directory nodes have one.

`CleanLevel` is the stronger shape invariant that holds when all inserted
records are file-typed with slash-separated, head-nonempty, pairwise
non-nested paths; it pins every node to a cumulative path of the form
`joinStep cur seg`. -/

mutual
inductive WFNode : TreeNode → Prop where
  | file (p : Str) (sz : Nat) (md : Str) :
      WFNode (TreeNode.mk p tyFile (some sz) (some md) none)
  | dir (p : Str) (sz : Option Nat) (md : Option Str) (cs : List TreeNode) :
      WFLevel cs → WFNode (TreeNode.mk p tyDirectory sz md (some cs))

inductive WFLevel : List TreeNode → Prop where
  | nil : WFLevel []
  | cons (n : TreeNode) (ns : List TreeNode) :
      WFNode n → WFLevel ns → (∀ m ∈ ns, m.path ≠ n.path) → WFLevel (n :: ns)
end

mutual
inductive CleanNode : Str → TreeNode → Prop where
  | file (cur seg : Str) (sz : Nat) (md : Str) :
      slashFree seg → (cur = [] → seg ≠ []) →
      CleanNode cur (TreeNode.mk (joinStep cur seg) tyFile (some sz) (some md) none)
  | dir (cur seg : Str) (cs : List TreeNode) :
      slashFree seg → (cur = [] → seg ≠ []) →
      CleanLevel (joinStep cur seg) cs →
      CleanNode cur (TreeNode.mk (joinStep cur seg) tyDirectory none none (some cs))

inductive CleanLevel : Str → List TreeNode → Prop where
  | nil (cur : Str) : CleanLevel cur []
  | cons (cur : Str) (n : TreeNode) (ns : List TreeNode) :
      CleanNode cur n → CleanLevel cur ns → (∀ m ∈ ns, m.path ≠ n.path) →
      CleanLevel cur (n :: ns)
end

/-- The nonempty strict segment-sequence heads of `segs` (every intermediate
directory implied by one record path), joined into cumulative paths from
`cur`. -/
def midJoins (cur : Str) (segs : List Str) : List Str :=
  (List.range (segs.length - 1)).map (fun i => joinFrom cur (segs.take (i + 1)))

/-! ## Renders of externally produced text (spec §6 grammar and OS output) -/

/-- A file-listing record of the manifest grammar, before rendering: the path,
the decimal byte count and the free-text modified tail. -/
structure MRecord where
  path : Str
  sizeDigits : Str
  modified : Str

/-- Well-formedness of a grammar record: the rendered line must stay one line
and each regex capture class must accept its text. -/
def MRecordOK (r : MRecord) : Prop :=
  r.path ≠ [] ∧ '"' ∉ r.path ∧ '\n' ∉ r.path ∧
  r.sizeDigits ≠ [] ∧ (∀ c ∈ r.sizeDigits, isDigitCh c = true) ∧
  r.modified ≠ [] ∧ '\n' ∉ r.modified ∧ '\r' ∉ r.modified

instance (r : MRecord) : Decidable (MRecordOK r) := by
  unfold MRecordOK
  infer_instance

/-- Render one file-listing line of the grammar:
`"<path>" (<bytes> bytes) - Modified: <freeform-text>`. -/
def renderRecordLine (r : MRecord) : Str :=
  '"' :: r.path ++ '"' :: ' ' :: '(' :: r.sizeDigits ++ strL (" bytes) - Modified: ") ++ r.modified

/-- The parsed `FileRecord` that one well-formed grammar line denotes. -/
def recordOf (r : MRecord) : FileRecord :=
  { path := r.path, type := tyFile, size := digitsToNat r.sizeDigits, modified := jsTrim r.modified }

/-- The manifest text lines of the spec §6 grammar: banner, `Timestamp:` and
`Directory:` lines, the file-listing section, and an optional summary section
carrying the two embedded totals as digit strings. -/
def manifestLines (ts dir : Str) (records : List MRecord) (summary : Option (Str × Str)) :
    List Str :=
  [List.replicate 70 '=',
   strL ("LHI Directory Monitor - MANIFEST"),
   List.replicate 70 '=',
   strL ("Timestamp: ") ++ ts,
   strL ("Directory: ") ++ dir,
   strL ("File Listing:"),
   strL ("-------------")]
  ++ records.map renderRecordLine
  ++ (match summary with
      | some (tf, td) =>
        [strL ("Summary:"), strL ("--------"),
         strL ("Total Files: ") ++ tf, strL ("Total Directories: ") ++ td]
      | none => [])

/-- A whole manifest document of the grammar, as raw text. -/
def manifestText (ts dir : Str) (records : List MRecord) (summary : Option (Str × Str)) : Str :=
  interC '\n' (manifestLines ts dir records summary)

/-- A nonempty all-digit string (an embedded summary total). -/
def DigitsOK (s : Str) : Prop := s ≠ [] ∧ ∀ c ∈ s, isDigitCh c = true

instance (s : Str) : Decidable (DigitsOK s) := by
  unfold DigitsOK
  infer_instance

/-- Render of `pgrep` stdout for a list of matched pid lines: each match on
its own terminated line; no match prints nothing. -/
def renderPgrep (pids : List Str) : Str := (pids.map (fun p => p ++ ['\n'])).flatten

/-- A `pgrep` output line: one nonempty run of decimal digits. -/
def PidLineOK (s : Str) : Prop := s ≠ [] ∧ ∀ c ∈ s, isDigitCh c = true

instance (s : Str) : Decidable (PidLineOK s) := by
  unfold PidLineOK
  infer_instance

/-- Render of one well-formed monitor-log change line:
`[<timestamp>][fswatch] Change detected: <file>`. -/
def renderChangeLine (e : RecentChange) : Str :=
  '[' :: e.timestamp ++ ']' :: strL ("[fswatch] Change detected: ") ++ e.file

/-- Well-formedness of a change entry with respect to the log-line grammar. -/
def ChangeLineOK (e : RecentChange) : Prop :=
  e.timestamp ≠ [] ∧ ']' ∉ e.timestamp ∧ '\n' ∉ e.timestamp ∧
  e.file ≠ [] ∧ '\n' ∉ e.file ∧ '\r' ∉ e.file

instance (e : RecentChange) : Decidable (ChangeLineOK e) := by
  unfold ChangeLineOK
  infer_instance

/-- Modelled from the spec (§4.1): the per-line exclude-parsing policy stated
there — drop blank lines and comment lines (leading `#`), trim whitespace,
and classify a kept line as directory-scoped when it ends with the path
separator. Used to compare `parseExcludes` against the spec's wording. -/
def specExcludeLine (line : Str) : Option ExcludePattern :=
  let t := jsTrim line
  if t = [] then none
  else if t.head? = some '#' then none
  else some { pattern := t, isDirectory := t.getLast? == some '/' }

/-! ## Helper lemmas: character-run primitives -/

@[simp]
theorem takeW_nil (p : Char → Bool) : takeW p [] = [] := rfl

theorem takeW_cons (p : Char → Bool) (c : Char) (cs : Str) :
    takeW p (c :: cs) = if p c then c :: takeW p cs else [] := rfl

@[simp]
theorem dropW_nil (p : Char → Bool) : dropW p [] = [] := rfl

theorem dropW_cons (p : Char → Bool) (c : Char) (cs : Str) :
    dropW p (c :: cs) = if p c then dropW p cs else c :: cs := rfl

theorem takeW_cons_false {p : Char → Bool} {c : Char} (cs : Str) (h : p c = false) :
    takeW p (c :: cs) = [] := by
  simp [takeW_cons, h]

theorem dropW_cons_false {p : Char → Bool} {c : Char} (cs : Str) (h : p c = false) :
    dropW p (c :: cs) = c :: cs := by
  simp [dropW_cons, h]

theorem takeW_append_all {p : Char → Bool} {xs : Str} (ys : Str)
    (h : ∀ x ∈ xs, p x = true) : takeW p (xs ++ ys) = xs ++ takeW p ys := by
  induction xs with
  | nil => simp
  | cons c cs ih =>
    simp only [List.cons_append, takeW_cons, h c (by simp), if_true]
    rw [ih (fun x hx => h x (by simp [hx]))]

theorem dropW_append_all {p : Char → Bool} {xs : Str} (ys : Str)
    (h : ∀ x ∈ xs, p x = true) : dropW p (xs ++ ys) = dropW p ys := by
  induction xs with
  | nil => simp
  | cons c cs ih =>
    simp only [List.cons_append, dropW_cons, h c (by simp), if_true]
    exact ih (fun x hx => h x (by simp [hx]))

theorem takeW_all {p : Char → Bool} {xs : Str} (h : ∀ x ∈ xs, p x = true) :
    takeW p xs = xs := by
  have := @takeW_append_all p xs [] h
  simpa using this

theorem dropW_all {p : Char → Bool} {xs : Str} (h : ∀ x ∈ xs, p x = true) :
    dropW p xs = [] := by
  have := @dropW_append_all p xs [] h
  simpa using this

theorem takeW_append_dropW (p : Char → Bool) (l : Str) :
    takeW p l ++ dropW p l = l := by
  induction l with
  | nil => rfl
  | cons c cs ih =>
    by_cases h : p c = true
    · simp [takeW_cons, dropW_cons, h, ih]
    · simp only [Bool.not_eq_true] at h
      simp [takeW_cons, dropW_cons, h]

theorem dropW_eq_nil_iff {p : Char → Bool} {l : Str} :
    dropW p l = [] ↔ ∀ x ∈ l, p x = true := by
  induction l with
  | nil => simp
  | cons c cs ih =>
    by_cases h : p c = true
    · simp [dropW_cons, h, ih]
    · simp only [Bool.not_eq_true] at h
      simp only [dropW_cons, h, Bool.false_eq_true, if_false]
      simp only [List.cons_ne_nil, false_iff]
      intro hall
      rw [hall c (by simp)] at h
      simp at h

theorem dropW_head_false {p : Char → Bool} {l : Str} {c : Char} {cs : Str}
    (h : dropW p l = c :: cs) : p c = false := by
  induction l with
  | nil => simp at h
  | cons d ds ih =>
    by_cases hd : p d = true
    · rw [dropW_cons, if_pos hd] at h
      exact ih h
    · simp only [Bool.not_eq_true] at hd
      rw [dropW_cons_false _ hd] at h
      cases h
      exact hd

theorem mem_takeW {p : Char → Bool} {l : Str} {c : Char} (h : c ∈ takeW p l) :
    c ∈ l ∧ p c = true := by
  induction l with
  | nil => simp at h
  | cons d ds ih =>
    by_cases hd : p d = true
    · rw [takeW_cons, if_pos hd] at h
      rcases List.mem_cons.mp h with h | h
      · exact ⟨by simp [h], by rw [h]; exact hd⟩
      · rcases ih h with ⟨h1, h2⟩
        exact ⟨by simp [h1], h2⟩
    · simp only [Bool.not_eq_true] at hd
      rw [takeW_cons_false _ hd] at h
      simp at h

/-! ## Helper lemmas: trim -/

theorem jsTrimLeft_cons_not_ws {c : Char} (cs : Str) (h : isJsSpace c = false) :
    jsTrimLeft (c :: cs) = c :: cs :=
  dropW_cons_false cs h

theorem jsTrimRight_prefix (l : Str) :
    l = jsTrimRight l ++ (takeW isJsSpace l.reverse).reverse := by
  unfold jsTrimRight
  rw [← List.reverse_append, takeW_append_dropW, List.reverse_reverse]

theorem jsTrimRight_head {l : Str} {c : Char} {cs : Str}
    (h : jsTrimRight l = c :: cs) : ∃ t, l = c :: (cs ++ t) := by
  refine ⟨(takeW isJsSpace l.reverse).reverse, ?_⟩
  have := jsTrimRight_prefix l
  rw [h] at this
  simpa using this

theorem jsTrimRight_append_not_ws {c : Char} (xs : Str) (h : isJsSpace c = false) :
    jsTrimRight (xs ++ [c]) = xs ++ [c] := by
  unfold jsTrimRight
  rw [List.reverse_append, List.reverse_singleton, List.singleton_append,
    dropW_cons_false _ h]
  simp

theorem jsTrimRight_ne_nil {l : Str} (h : ∃ c ∈ l, isJsSpace c = false) :
    jsTrimRight l ≠ [] := by
  unfold jsTrimRight
  intro hcon
  rcases h with ⟨c, hc, hcw⟩
  have : dropW isJsSpace l.reverse = [] := by
    cases heq : dropW isJsSpace l.reverse with
    | nil => rfl
    | cons a as => rw [heq] at hcon; simp at hcon
  rw [dropW_eq_nil_iff] at this
  rw [this c (by simpa using hc)] at hcw
  simp at hcw

theorem jsTrim_ne_nil {l : Str} (h : ∃ c ∈ l, isJsSpace c = false) :
    jsTrim l ≠ [] := by
  unfold jsTrim
  apply jsTrimRight_ne_nil
  rcases h with ⟨c, hc, hcw⟩
  refine ⟨c, ?_, hcw⟩
  unfold jsTrimLeft
  induction l with
  | nil => simp at hc
  | cons d ds ih =>
    by_cases hd : isJsSpace d = true
    · rw [dropW_cons, if_pos hd]
      rcases List.mem_cons.mp hc with hcd | hcd
      · rw [hcd] at hcw; rw [hcw] at hd; simp at hd
      · exact ih hcd
    · simp only [Bool.not_eq_true] at hd
      rwa [dropW_cons_false _ hd]

theorem jsTrim_cons_not_ws {c : Char} (cs : Str) (h : isJsSpace c = false) :
    jsTrim (c :: cs) = jsTrimRight (c :: cs) := by
  unfold jsTrim
  rw [jsTrimLeft_cons_not_ws cs h]

theorem jsTrim_head {l : Str} {c : Char} {cs : Str}
    (h : jsTrim l = c :: cs) : isJsSpace c = false := by
  unfold jsTrim at h
  have hpre := jsTrimRight_prefix (jsTrimLeft l)
  rw [h, List.cons_append] at hpre
  exact @dropW_head_false _ l _ _ hpre

/-! ## Helper lemmas: line splitting and joining -/

theorem splitOnChar_ne_nil (sep : Char) (l : Str) : splitOnChar sep l ≠ [] := by
  cases l with
  | nil => simp [splitOnChar]
  | cons c cs =>
    unfold splitOnChar
    cases splitOnChar sep cs with
    | nil => simp
    | cons a as =>
      by_cases h : c == sep
      · simp [h]
      · simp [h]

theorem splitOnChar_cons_eq (sep c : Char) (cs : Str) :
    splitOnChar sep (c :: cs) =
      match splitOnChar sep cs with
      | [] => [[]]
      | l :: ls => if c == sep then [] :: l :: ls else (c :: l) :: ls := rfl

theorem splitOnChar_cons_sep (sep : Char) (cs : Str) :
    splitOnChar sep (sep :: cs) = [] :: splitOnChar sep cs := by
  rw [splitOnChar_cons_eq]
  rcases hs : splitOnChar sep cs with _ | ⟨a, as⟩
  · exact absurd hs (splitOnChar_ne_nil sep cs)
  · simp

theorem splitOnChar_cons_ne {sep c : Char} (cs : Str) (h : ¬ c = sep) :
    ∃ a as, splitOnChar sep cs = a :: as ∧ splitOnChar sep (c :: cs) = (c :: a) :: as := by
  rcases hs : splitOnChar sep cs with _ | ⟨a, as⟩
  · exact absurd hs (splitOnChar_ne_nil sep cs)
  · refine ⟨a, as, rfl, ?_⟩
    rw [splitOnChar_cons_eq, hs]
    simp [h]

theorem splitOnChar_not_mem {sep : Char} {l : Str} (h : sep ∉ l) :
    splitOnChar sep l = [l] := by
  induction l with
  | nil => rfl
  | cons c cs ih =>
    have hc : ¬ c = sep := fun hcc => h (by simp [hcc])
    rcases splitOnChar_cons_ne cs hc with ⟨a, as, h1, h2⟩
    rw [h2, ih (fun hm => h (by simp [hm]))] at *
    rw [ih (fun hm => h (by simp [hm]))] at h1
    cases h1
    rfl

theorem splitOnChar_append_sep {sep : Char} {xs : Str} (ys : Str) (h : sep ∉ xs) :
    splitOnChar sep (xs ++ sep :: ys) = xs :: splitOnChar sep ys := by
  induction xs with
  | nil => simpa using splitOnChar_cons_sep sep ys
  | cons c cs ih =>
    have hc : ¬ c = sep := fun hcc => h (by simp [hcc])
    have ih2 := ih (fun hm => h (by simp [hm]))
    rcases splitOnChar_cons_ne (cs ++ sep :: ys) hc with ⟨a, as, h1, h2⟩
    rw [List.cons_append, h2]
    rw [ih2] at h1
    cases h1
    rfl

theorem splitOnChar_interC {sep : Char} {pieces : List Str}
    (hne : pieces ≠ []) (h : ∀ p ∈ pieces, sep ∉ p) :
    splitOnChar sep (interC sep pieces) = pieces := by
  induction pieces with
  | nil => exact absurd rfl hne
  | cons x xs ih =>
    cases xs with
    | nil => exact splitOnChar_not_mem (h x (by simp))
    | cons y ys =>
      have : interC sep (x :: y :: ys) = x ++ sep :: interC sep (y :: ys) := rfl
      rw [this, splitOnChar_append_sep _ (h x (by simp)),
        ih (by simp) (fun p hp => h p (by simp [hp]))]

theorem mem_splitOnChar_not_mem {sep : Char} {l : Str} {p : Str}
    (h : p ∈ splitOnChar sep l) : sep ∉ p := by
  induction l generalizing p with
  | nil =>
    simp [splitOnChar] at h
    simp [h]
  | cons c cs ih =>
    by_cases hc : c = sep
    · subst hc
      rw [splitOnChar_cons_sep] at h
      rcases List.mem_cons.mp h with h | h
      · simp [h]
      · exact ih h
    · rcases splitOnChar_cons_ne cs hc with ⟨a, as, h1, h2⟩
      rw [h2] at h
      rcases List.mem_cons.mp h with h | h
      · subst h
        intro hm
        rcases List.mem_cons.mp hm with hm | hm
        · exact hc hm.symm
        · exact @ih a (by rw [h1]; simp) hm
      · exact ih (by rw [h1]; simp [h])

/-! ## Claim C9: parseExcludes -/

theorem jsStartsWith_hash (t : Str) :
    jsStartsWith (strL ("#")) t = true ↔ t.head? = some '#' := by
  cases t with
  | nil => simp [jsStartsWith, strL]
  | cons c cs =>
    simp only [strL, jsStartsWith, List.head?_cons, Option.some.injEq]
    constructor
    · intro h
      have : ('#' == c) = true := by
        cases hb : ('#' == c) with
        | false => rw [hb] at h; simp at h
        | true => rfl
      exact (beq_iff_eq.mp this).symm
    · intro h
      subst h
      simp [jsStartsWith]

theorem jsEndsWith_slash (t : Str) :
    jsEndsWith (strL ("/")) t = (t.getLast? == some '/') := by
  unfold jsEndsWith
  cases ht : t.reverse with
  | nil =>
    have : t = [] := by simpa using congrArg List.reverse ht
    subst this
    simp [jsStartsWith, strL]
  | cons c cs =>
    have hl : t.getLast? = some c := by
      rw [← List.head?_reverse, ht]
      rfl
    rw [hl]
    simp only [strL, jsStartsWith]
    cases hb : (('/' : Char) == c) with
    | false =>
      simp only [hb, Bool.false_and]
      have : ¬ (some c == some '/') = true := by
        simp only [beq_iff_eq, Option.some.injEq]
        intro h
        rw [h] at hb
        simp at hb
      simp only [Bool.not_eq_true] at this
      rw [this]
    | true =>
      have : c = '/' := (beq_iff_eq.mp hb).symm
      subst this
      simp [jsStartsWith]

theorem parseExcludes_foldl_eq (acc : List ExcludePattern) (lines : List Str) :
    lines.foldl
      (fun patterns line =>
        let trimmed := jsTrim line
        if trimmed = [] then patterns
        else if jsStartsWith (strL ("#")) trimmed then patterns
        else patterns ++ [{ pattern := trimmed, isDirectory := jsEndsWith (strL ("/")) trimmed }])
      acc = acc ++ lines.filterMap specExcludeLine := by
  induction lines generalizing acc with
  | nil => simp
  | cons l ls ih =>
    rw [List.foldl_cons, List.filterMap_cons, ih]
    by_cases h0 : jsTrim l = []
    · simp [specExcludeLine, h0]
    · by_cases h1 : jsStartsWith (strL ("#")) (jsTrim l) = true
      · have h2 : (jsTrim l).head? = some '#' := (jsStartsWith_hash _).mp h1
        simp [specExcludeLine, h0, h1, h2]
      · have h2 : ¬ (jsTrim l).head? = some '#' := fun hc =>
          h1 ((jsStartsWith_hash _).mpr hc)
        simp only [Bool.not_eq_true] at h1
        simp [specExcludeLine, h0, h1, h2, jsEndsWith_slash]

/-- Claim C9: `parseExcludes` drops blank lines and lines whose trimmed form
starts with `#`, trims each kept line, and marks a pattern directory-scoped
exactly when the trimmed line ends with `/` (stated as agreement with the
spec-worded per-line policy `specExcludeLine` on every split line); and the
particular input with the line `node_modules/`, a blank line and a comment
line yields exactly one pattern, directory-scoped. -/
theorem parseExcludes_correct (content : Str) :
    parseExcludes content = (splitOnChar '\n' content).filterMap specExcludeLine ∧
    parseExcludes (strL ("node_modules/\n\n# comment")) =
      [{ pattern := strL ("node_modules/"), isDirectory := true }] := by
  constructor
  · unfold parseExcludes
    exact parseExcludes_foldl_eq [] _
  · decide

/-! ## Claim C3: exclude-source priority -/

/-- Claim C3: the excludes route follows the strict two-level priority — a
present `.lhi_excludes` wins with source `.lhi_excludes`, otherwise a present
`.gitignore` is used with source `.gitignore`, otherwise the patterns are
empty with a null source; missing files never produce an error result. -/
theorem excludesHandler_priority (env : ExcludesEnv) :
    (∀ c, env.lhiExcludes = some c →
      excludesHandler env =
        { patterns := parseExcludes c, source := some (strL (".lhi_excludes")) }) ∧
    (∀ c, env.lhiExcludes = none → env.gitignore = some c →
      excludesHandler env =
        { patterns := parseExcludes c, source := some (strL (".gitignore")) }) ∧
    (env.lhiExcludes = none → env.gitignore = none →
      excludesHandler env = { patterns := [], source := none }) := by
  obtain ⟨lhi, git⟩ := env
  refine ⟨?_, ?_, ?_⟩
  · intro c hc
    cases hc
    rfl
  · intro c h1 h2
    cases h1
    cases h2
    rfl
  · intro h1 h2
    cases h1
    cases h2
    rfl

/-- Witness for C3 at concrete environments. -/
theorem excludesHandler_priority_witness :
    excludesHandler { lhiExcludes := none, gitignore := none } =
      { patterns := [], source := none } :=
  (excludesHandler_priority { lhiExcludes := none, gitignore := none }).2.2 rfl rfl

/-! ## Claim C6: missing manifest is expected absence -/

/-- Claim C6: for every directory whose manifest file does not exist, the
manifest route answers a normal 200 result with zero totals, an empty tree and
a descriptive message, not an error/failed result. -/
theorem manifestHandler_missing (watchPath nowIso : Str) :
    manifestHandler watchPath none nowIso =
      { status := 200, directory := watchPath, timestamp := none,
        total_files := 0, total_directories := 0, tree := [],
        error := some (strL ("No manifest file found. Click Refresh to generate one.")) } :=
  rfl

/-! ## Claim C7: registry add validates before delegating -/

/-- Claim C7: a missing (or empty, which JS truthiness also rejects)
`directory` argument and a non-existent target path both produce a 400
rejected-request response with a descriptive message and never reach the
registration tool; conversely the tool is only invoked for a present,
existing directory, so the existence check happens before delegation. -/
theorem registryAddHandler_validation (fsExists : Str → Bool) (execRes : Except Str Str) :
    (registryAddHandler none fsExists execRes =
      { status := 400, error := some (strL ("Directory path is required")),
        message := none, invoked := false }) ∧
    (∀ d, d ≠ [] → fsExists d = false →
      registryAddHandler (some d) fsExists execRes =
        { status := 400, error := some (strL ("Directory does not exist: ") ++ d),
          message := none, invoked := false }) ∧
    (∀ dOpt, (registryAddHandler dOpt fsExists execRes).invoked = true →
      ∃ d, dOpt = some d ∧ d ≠ [] ∧ fsExists d = true) := by
  refine ⟨rfl, ?_, ?_⟩
  · intro d hd hex
    simp [registryAddHandler, hd, hex]
  · intro dOpt hinv
    cases dOpt with
    | none => simp [registryAddHandler] at hinv
    | some d =>
      refine ⟨d, rfl, ?_, ?_⟩
      · intro hd
        subst hd
        simp [registryAddHandler] at hinv
      · by_cases hex : fsExists d = true
        · exact hex
        · simp only [Bool.not_eq_true] at hex
          by_cases hd : d = []
          · subst hd
            simp [registryAddHandler] at hinv
          · simp [registryAddHandler, hd, hex] at hinv

/-- Witness for C7 at a concrete non-existent directory. -/
theorem registryAddHandler_validation_witness :
    registryAddHandler (some ['a']) (fun _ => false) (Except.ok []) =
      { status := 400, error := some (strL ("Directory does not exist: ") ++ ['a']),
        message := none, invoked := false } :=
  (registryAddHandler_validation (fun _ => false) (Except.ok [])).2.1 ['a'] (by decide) rfl

/-! ## Helper lemmas: digit strings and pgrep output -/

theorem digit_not_ws {c : Char} (h : isDigitCh c = true) : isJsSpace c = false := by
  cases hw : isJsSpace c with
  | false => rfl
  | true =>
    unfold isJsSpace at hw
    simp only [Bool.or_eq_true, beq_iff_eq] at hw
    rcases hw with ((((rfl | rfl) | rfl) | rfl) | rfl) | rfl <;>
      exact absurd h (by decide)

theorem digits_no_nl {s : Str} (h : ∀ c ∈ s, isDigitCh c = true) : '\n' ∉ s := by
  intro hm
  exact absurd (h '\n' hm) (by decide)

theorem renderPgrep_cons (p : Str) (ps : List Str) :
    renderPgrep (p :: ps) = p ++ '\n' :: renderPgrep ps := by
  simp [renderPgrep]

theorem renderPgrep_eq_interC {pids : List Str} (h : pids ≠ []) :
    renderPgrep pids = interC '\n' pids ++ ['\n'] := by
  induction pids with
  | nil => exact absurd rfl h
  | cons p ps ih =>
    cases ps with
    | nil => simp [renderPgrep, interC]
    | cons q qs =>
      rw [renderPgrep_cons, ih (by simp)]
      show p ++ '\n' :: (interC '\n' (q :: qs) ++ ['\n']) =
        (p ++ '\n' :: interC '\n' (q :: qs)) ++ ['\n']
      simp

theorem dropW_append_of_ne_nil {p : Char → Bool} {xs : Str} (ys : Str)
    (h : dropW p xs ≠ []) : dropW p (xs ++ ys) = dropW p xs ++ ys := by
  induction xs with
  | nil => exact absurd rfl h
  | cons c cs ih =>
    by_cases hc : p c = true
    · rw [dropW_cons, if_pos hc] at h
      rw [List.cons_append, dropW_cons, if_pos hc, dropW_cons, if_pos hc]
      exact ih h
    · simp only [Bool.not_eq_true] at hc
      rw [List.cons_append, dropW_cons_false _ hc, dropW_cons_false _ hc]
      rfl

theorem jsTrimRight_append_right {a b : Str} (h : jsTrimRight b ≠ []) :
    jsTrimRight (a ++ b) = a ++ jsTrimRight b := by
  unfold jsTrimRight at *
  have hb : dropW isJsSpace b.reverse ≠ [] := by
    intro hc
    rw [hc] at h
    simp at h
  rw [List.reverse_append, dropW_append_of_ne_nil _ hb]
  simp

theorem interC_ne_nil {sep : Char} {x : Str} {xs : List Str} (hx : x ≠ []) :
    interC sep (x :: xs) ≠ [] := by
  cases xs with
  | nil => simpa [interC] using hx
  | cons y ys =>
    show x ++ sep :: interC sep (y :: ys) ≠ []
    simp [hx]

theorem jsTrimRight_interC_digits {pids : List Str}
    (h : ∀ q ∈ pids, PidLineOK q) (hne : pids ≠ []) :
    jsTrimRight (interC '\n' pids) = interC '\n' pids := by
  induction pids with
  | nil => exact absurd rfl hne
  | cons p ps ih =>
    cases ps with
    | nil =>
      show jsTrimRight p = p
      obtain ⟨hp, hd⟩ := h p (by simp)
      have hlast := List.dropLast_append_getLast hp
      calc jsTrimRight p
          = jsTrimRight (List.dropLast p ++ [List.getLast p hp]) := by rw [hlast]
        _ = List.dropLast p ++ [List.getLast p hp] :=
            jsTrimRight_append_not_ws _ (digit_not_ws (hd _ (List.getLast_mem hp)))
        _ = p := hlast
    | cons q qs =>
      have ihq := ih (fun r hr => h r (by simp [hr])) (by simp)
      have hsplit : interC '\n' (p :: q :: qs) = (p ++ ['\n']) ++ interC '\n' (q :: qs) := by
        show p ++ '\n' :: interC '\n' (q :: qs) = _
        simp
      rw [hsplit, jsTrimRight_append_right (by
        rw [ihq]
        exact interC_ne_nil (h q (by simp)).1), ihq]

theorem jsTrim_renderPgrep {pids : List Str}
    (h : ∀ q ∈ pids, PidLineOK q) (hne : pids ≠ []) :
    jsTrim (renderPgrep pids) = interC '\n' pids := by
  obtain ⟨p, ps, rfl⟩ : ∃ p ps, pids = p :: ps := by
    cases pids with
    | nil => exact absurd rfl hne
    | cons p ps => exact ⟨p, ps, rfl⟩
  obtain ⟨hp, hd⟩ := h p (by simp)
  obtain ⟨c, cs, rfl⟩ : ∃ c cs, p = c :: cs := by
    cases p with
    | nil => exact absurd rfl hp
    | cons c cs => exact ⟨c, cs, rfl⟩
  rw [renderPgrep_eq_interC hne]
  unfold jsTrim
  have hhead : interC '\n' ((c :: cs) :: ps) ++ ['\n'] =
      c :: (interC '\n' ((c :: cs) :: ps)).tail ++ ['\n'] := by
    cases ps with
    | nil => simp [interC]
    | cons q qs => rfl
  have hcw : isJsSpace c = false := digit_not_ws (hd c (by simp))
  rw [hhead, List.cons_append, jsTrimLeft_cons_not_ws _ hcw, ← List.cons_append, ← hhead]
  have : jsTrimRight (interC '\n' ((c :: cs) :: ps) ++ ['\n']) =
      jsTrimRight (interC '\n' ((c :: cs) :: ps)) := by
    unfold jsTrimRight
    rw [List.reverse_append, List.reverse_singleton, List.singleton_append,
      dropW_cons, if_pos (by decide)]
  rw [this, jsTrimRight_interC_digits h hne]

theorem jsParseInt_digits {p : Str} (h : PidLineOK p) :
    jsParseInt p = some ((digitsToNat p : Int)) := by
  obtain ⟨hp, hd⟩ := h
  obtain ⟨c, cs, rfl⟩ : ∃ c cs, p = c :: cs := by
    cases p with
    | nil => exact absurd rfl hp
    | cons c cs => exact ⟨c, cs, rfl⟩
  have hcd := hd c (by simp)
  have hminus : c ≠ '-' := by intro hc; rw [hc] at hcd; exact absurd hcd (by decide)
  have hplus : c ≠ '+' := by intro hc; rw [hc] at hcd; exact absurd hcd (by decide)
  unfold jsParseInt
  rw [jsTrimLeft_cons_not_ws _ (digit_not_ws hcd)]
  simp only [List.head?_cons]
  have hc1 : ((some c == some '-') : Bool) = false := by simp [hminus]
  have hc2 : ((some c == some '+') : Bool) = false := by simp [hplus]
  simp only [hc1, hc2, Bool.or_self, Bool.false_eq_true, if_false]
  rw [takeW_all hd, if_neg hp]

/-! ## Claim C5: the process probe -/

/-- Claim C5: with zero matching watch processes (`pgrep` prints nothing) the
status probe reports running=false with pid and uptime absent; with at least
one match it reports running=true, the pid parsed from the first match line,
and the uptime is the trimmed `ps` output when that lookup succeeded and stays
absent when the lookup failed, without failing the probe. -/
theorem statusHandler_probe (watchPath : Str) (psResult : Option Str)
    (manifestMtime : Option Str) :
    (statusHandler watchPath (renderPgrep []) psResult manifestMtime =
      { running := false, pid := none, watchedPath := watchPath, uptime := none,
        lastManifestUpdate := manifestMtime }) ∧
    (∀ p ps, PidLineOK p → (∀ q ∈ ps, PidLineOK q) →
      statusHandler watchPath (renderPgrep (p :: ps)) psResult manifestMtime =
        { running := true, pid := some ((digitsToNat p : Int)), watchedPath := watchPath,
          uptime := match psResult with | some u => some (jsTrim u) | none => none,
          lastManifestUpdate := manifestMtime }) := by
  constructor
  · rfl
  · intro p ps hp hps
    have hall : ∀ q ∈ p :: ps, PidLineOK q := by
      intro q hq
      rcases List.mem_cons.mp hq with hq | hq
      · rw [hq]; exact hp
      · exact hps q hq
    have h1 : jsTrim (renderPgrep (p :: ps)) = interC '\n' (p :: ps) :=
      jsTrim_renderPgrep hall (by simp)
    have h2 : splitOnChar '\n' (interC '\n' (p :: ps)) = p :: ps :=
      splitOnChar_interC (by simp) (fun q hq => digits_no_nl (hall q hq).2)
    have h3 : (p :: ps).filter (fun s => !(s = [])) = p :: ps :=
      List.filter_eq_self.mpr (fun q hq => by simp [(hall q hq).1])
    unfold statusHandler
    rw [h1, h2, h3]
    simp [jsParseInt_digits hp, hp.1]

/-- Witness for C5 with two matching processes and a failed uptime lookup. -/
theorem statusHandler_probe_witness :
    statusHandler [] (renderPgrep [['1'], ['2']]) none none =
      { running := true, pid := some 1, watchedPath := [], uptime := none,
        lastManifestUpdate := none } := by
  have h := (statusHandler_probe [] none none).2 ['1'] [['2']] (by decide) (by decide)
  simpa using h

/-! ## Claim C4: start is a no-op on an already-running monitor -/

theorem probe_running_iff (watchPath out : Str) (psResult manifestMtime : Option Str) :
    (statusHandler watchPath out psResult manifestMtime).running = true ↔ jsTrim out ≠ [] := by
  unfold statusHandler
  simp only [decide_eq_true_eq]
  constructor
  · intro h hnil
    rw [hnil] at h
    simp [splitOnChar] at h
  · intro h
    rcases ht : jsTrim out with _ | ⟨c, cs⟩
    · exact absurd ht h
    · have hcw : isJsSpace c = false := jsTrim_head ht
      have hcn : ¬ c = '\n' := by
        intro hc
        rw [hc] at hcw
        simp [isJsSpace] at hcw
      rcases splitOnChar_cons_ne cs hcn with ⟨a, as, _, h2⟩
      rw [h2]
      simp

/-- Claim C4: whenever the probe reports a running watch process for the
directory, `start` responds with the already-running success message without
spawning anything; only when the probe reports no match does it spawn the
detached monitor process and wait the fixed 2000 ms settle interval. -/
theorem startHandler_idempotent (watchPath pgrepOut : Str) :
    ((statusHandler watchPath pgrepOut none none).running = true →
      startHandler watchPath pgrepOut =
        { status := 200, success := true,
          message := strL ("Monitor already running for this directory"),
          spawned := false, waitedMs := 0 }) ∧
    ((statusHandler watchPath pgrepOut none none).running = false →
      startHandler watchPath pgrepOut =
        { status := 200, success := true,
          message := strL ("Monitor started for ") ++ watchPath,
          spawned := true, waitedMs := 2000 }) := by
  constructor
  · intro h
    have := (probe_running_iff watchPath pgrepOut none none).mp h
    unfold startHandler
    simp [this]
  · intro h
    have : ¬ jsTrim pgrepOut ≠ [] := by
      intro hc
      rw [(probe_running_iff watchPath pgrepOut none none).mpr hc] at h
      simp at h
    have hnil : jsTrim pgrepOut = [] := by
      by_cases he : jsTrim pgrepOut = []
      · exact he
      · exact absurd he this
    unfold startHandler
    simp [hnil]

/-- Witness for C4: a blank probe output spawns, a match does not. -/
theorem startHandler_idempotent_witness :
    startHandler [] [] =
      { status := 200, success := true, message := strL ("Monitor started for ") ++ [],
        spawned := true, waitedMs := 2000 } ∧
    startHandler [] ['7'] =
      { status := 200, success := true,
        message := strL ("Monitor already running for this directory"),
        spawned := false, waitedMs := 0 } :=
  ⟨(startHandler_idempotent [] []).2 (by decide),
   (startHandler_idempotent [] ['7']).1 (by decide)⟩

/-! ## Claim C8: recent changes -/

theorem jsStartsWith_append_self (l r : Str) : jsStartsWith l (l ++ r) = true := by
  induction l with
  | nil => rfl
  | cons c cs ih => simp [jsStartsWith, ih]

theorem expectStr_append (lit rest : Str) : expectStr lit (lit ++ rest) = some rest := by
  unfold expectStr
  rw [if_pos (jsStartsWith_append_self lit rest), List.drop_left]

theorem length_takeLast (n : Nat) (l : List α) : (takeLast n l).length ≤ n := by
  unfold takeLast
  rw [List.length_drop]
  omega

theorem takeLast_map (n : Nat) (f : α → β) (l : List α) :
    takeLast n (l.map f) = (takeLast n l).map f := by
  unfold takeLast
  rw [List.length_map, List.map_drop]

theorem filterMap_id_of_some {h : α → Option α} {l : List α}
    (hl : ∀ x ∈ l, h x = some x) : l.filterMap h = l := by
  induction l with
  | nil => rfl
  | cons x xs ih =>
    rw [List.filterMap_cons, hl x (by simp), ih (fun y hy => hl y (by simp [hy]))]

theorem insDesc_ne_nil (key : α → Int) (x : α) (l : List α) : insDesc key x l ≠ [] := by
  cases l with
  | nil => simp [insDesc]
  | cons y ys =>
    unfold insDesc
    by_cases h : key x < key y
    · simp [h]
    · simp [h]

theorem sortByKeyDesc_ne_nil (key : α → Int) {l : List α} (h : l ≠ []) :
    sortByKeyDesc key l ≠ [] := by
  cases l with
  | nil => exact absurd rfl h
  | cons x xs => exact insDesc_ne_nil key x (sortByKeyDesc key xs)

theorem sortByKeyDesc_head_max (key : α → Int) :
    ∀ (l : List α) (x : α) (xs : List α),
      sortByKeyDesc key l = x :: xs → x ∈ l ∧ ∀ y ∈ l, key y ≤ key x := by
  intro l
  induction l with
  | nil => intro x xs h; simp [sortByKeyDesc] at h
  | cons a as ih =>
    intro x xs h
    rw [show sortByKeyDesc key (a :: as) = insDesc key a (sortByKeyDesc key as)
      from rfl] at h
    rcases hs2 : sortByKeyDesc key as with _ | ⟨y, ys⟩
    · rw [hs2] at h
      have h2 : ([a] : List α) = x :: xs := h
      injection h2 with h3 h4
      subst h3
      have has : as = [] := by
        by_contra hc
        exact sortByKeyDesc_ne_nil key hc hs2
      subst has
      refine ⟨by simp, ?_⟩
      intro y hy
      rcases List.mem_singleton.mp hy with rfl
      exact le_refl _
    · rw [hs2] at h
      obtain ⟨hmem, hmax⟩ := ih y ys hs2
      unfold insDesc at h
      by_cases hlt : key a < key y
      · rw [if_pos hlt] at h
        injection h with h3 h4
        subst h3
        refine ⟨List.mem_cons_of_mem _ hmem, ?_⟩
        intro z hz
        rcases List.mem_cons.mp hz with rfl | hz
        · exact le_of_lt hlt
        · exact hmax z hz
      · rw [if_neg hlt] at h
        injection h with h3 h4
        subst h3
        refine ⟨by simp, ?_⟩
        intro z hz
        rcases List.mem_cons.mp hz with rfl | hz
        · exact le_refl _
        · exact le_trans (hmax z hz) (le_of_not_lt hlt)

theorem matchChangeAt_cons (rest : Str) :
    matchChangeAt ('[' :: rest) =
      (if takeW (fun c => !(c == ']')) rest = [] then none
       else
         match expectStr (strL ("][fswatch] Change detected: "))
             (dropW (fun c => !(c == ']')) rest) with
         | none => none
         | some r3 =>
           if takeW (fun c => !(c == '\n' || c == '\r')) r3 = [] then none
           else some (takeW (fun c => !(c == ']')) rest,
             takeW (fun c => !(c == '\n' || c == '\r')) r3)) := rfl

theorem matchChangeAt_render {e : RecentChange} (h : ChangeLineOK e) :
    matchChangeAt (renderChangeLine e) = some (e.timestamp, e.file) := by
  obtain ⟨hts, htb, _, hf, hfn, hfr⟩ := h
  have hts2 : ∀ c ∈ e.timestamp, (fun c => !(c == ']')) c = true := by
    intro c hc
    simp only [Bool.not_eq_true']
    exact beq_eq_false_iff_ne.mpr (fun hcc => htb (hcc ▸ hc))
  have htake : takeW (fun c => !(c == ']'))
      (e.timestamp ++ ']' :: (strL ("[fswatch] Change detected: ") ++ e.file)) = e.timestamp := by
    rw [takeW_append_all _ hts2, takeW_cons_false _ (by simp)]
    simp
  have hdrop : dropW (fun c => !(c == ']'))
      (e.timestamp ++ ']' :: (strL ("[fswatch] Change detected: ") ++ e.file)) =
      strL ("][fswatch] Change detected: ") ++ e.file := by
    rw [dropW_append_all _ hts2, dropW_cons_false _ (by simp)]
    rfl
  have hfile : takeW (fun c => !(c == '\n' || c == '\r')) e.file = e.file := by
    apply takeW_all
    intro c hc
    simp only [Bool.not_eq_true', Bool.or_eq_false_iff]
    exact ⟨beq_eq_false_iff_ne.mpr (fun hcc => hfn (hcc ▸ hc)),
      beq_eq_false_iff_ne.mpr (fun hcc => hfr (hcc ▸ hc))⟩
  have hr : renderChangeLine e =
      '[' :: (e.timestamp ++ ']' :: (strL ("[fswatch] Change detected: ") ++ e.file)) := by
    simp [renderChangeLine]
  rw [hr, matchChangeAt_cons, htake, hdrop, if_neg hts, expectStr_append]
  split
  · rename_i heq
    exact absurd heq (by simp)
  · rename_i r3 heq
    injection heq with hr3
    subst hr3
    rw [hfile, if_neg hf]

theorem searchChange_cons (c : Char) (cs : Str) :
    searchChange (c :: cs) =
      (match matchChangeAt (c :: cs) with
       | some r => some r
       | none => searchChange cs) := rfl

theorem searchChange_render {e : RecentChange} (h : ChangeLineOK e) :
    searchChange (renderChangeLine e) = some (e.timestamp, e.file) := by
  have hr : renderChangeLine e =
      '[' :: (e.timestamp ++ ']' :: (strL ("[fswatch] Change detected: ") ++ e.file)) := by
    simp [renderChangeLine]
  rw [hr, searchChange_cons, ← hr, matchChangeAt_render h]

/-- Claim C8: the changes route always answers 200 with at most five entries;
a missing logs directory, no matching log directory or no `.log` file each
yield the empty list rather than an error; and when matching log directories
exist, the handler draws from one specific matching directory whose mtime is
maximal among the matches (the most recently modified one): whenever that
directory's first `.log` file holds a well-formed log whose change-marked
lines render the entry list `entries`, the response is exactly the last five
entries newest-first. -/
theorem changesHandler_correct :
    (∀ env : ChangesEnv, (changesHandler env).status = 200 ∧
       (changesHandler env).recentChanges.length ≤ 5) ∧
    (∀ env : ChangesEnv, env.logDirs = none → (changesHandler env).recentChanges = []) ∧
    (∀ env : ChangesEnv, ∀ lds, env.logDirs = some lds →
       (∀ d ∈ lds, (jsStartsWith (strL ("ldm_")) d &&
          containsSub (normalizeDirName (jsBasename env.watchPath)) d) = false) →
       (changesHandler env).recentChanges = []) ∧
    (∀ env : ChangesEnv, (∀ d f, f ∈ env.filesIn d → jsEndsWith (strL (".log")) f = false) →
       (changesHandler env).recentChanges = []) ∧
    (∀ env : ChangesEnv, ∀ lds lines entries,
       env.logDirs = some lds →
       0 < (lds.filter (fun d => jsStartsWith (strL ("ldm_")) d &&
             containsSub (normalizeDirName (jsBasename env.watchPath)) d)).length →
       ∃ latestDir ∈ lds.filter (fun d => jsStartsWith (strL ("ldm_")) d &&
             containsSub (normalizeDirName (jsBasename env.watchPath)) d),
         (∀ d ∈ lds.filter (fun d => jsStartsWith (strL ("ldm_")) d &&
             containsSub (normalizeDirName (jsBasename env.watchPath)) d),
           env.dirMtime d ≤ env.dirMtime latestDir) ∧
         ∀ logFile,
           (env.filesIn latestDir).find? (fun f => jsEndsWith (strL (".log")) f) =
             some logFile →
           env.readLog latestDir logFile = interC '\n' lines →
           lines ≠ [] → (∀ l ∈ lines, '\n' ∉ l) →
           lines.filter (fun l => containsSub (strL ("[fswatch] Change detected:")) l) =
             entries.map renderChangeLine →
           (∀ e ∈ entries, ChangeLineOK e) →
           (changesHandler env).recentChanges = (takeLast 5 entries).reverse) := by
  refine ⟨?_, ?_, ?_, ?_, ?_⟩
  · intro env
    refine ⟨rfl, ?_⟩
    unfold changesHandler
    cases env.logDirs with
    | none => simp
    | some lds =>
      simp only []
      split
      · split
        · simp
        · split
          · simp
          · simp only [List.length_reverse]
            calc (List.filterMap _ (takeLast 5 _)).length
                ≤ (takeLast 5 _).length := List.length_filterMap_le _ _
              _ ≤ 5 := length_takeLast 5 _
      · simp
  · intro env h
    unfold changesHandler
    rw [h]
  · intro env lds h hall
    unfold changesHandler
    rw [h]
    have : lds.filter (fun d => jsStartsWith (strL ("ldm_")) d &&
        containsSub (normalizeDirName (jsBasename env.watchPath)) d) = [] := by
      rw [List.filter_eq_nil_iff]
      intro d hd
      rw [hall d hd]
      simp
    simp [this]
  · intro env hnolog
    unfold changesHandler
    cases hld : env.logDirs with
    | none => rfl
    | some lds =>
      simp only []
      split
      · split
        · rfl
        · rename_i latest rest hsorted
          have : ((env.filesIn latest).find? (fun f => jsEndsWith (strL (".log")) f)) = none := by
            rw [List.find?_eq_none]
            intro f hf
            rw [hnolog latest f hf]
            simp
          rw [this]
      · rfl
  · intro env lds lines entries hld hmatch
    have hsne : sortByKeyDesc env.dirMtime (lds.filter (fun d => jsStartsWith (strL ("ldm_")) d &&
        containsSub (normalizeDirName (jsBasename env.watchPath)) d)) ≠ [] := by
      apply sortByKeyDesc_ne_nil
      intro hc
      rw [hc] at hmatch
      simp at hmatch
    rcases hs : sortByKeyDesc env.dirMtime (lds.filter (fun d => jsStartsWith (strL ("ldm_")) d &&
        containsSub (normalizeDirName (jsBasename env.watchPath)) d)) with _ | ⟨latest, rest⟩
    · exact absurd hs hsne
    · obtain ⟨hmem, hmax⟩ := sortByKeyDesc_head_max env.dirMtime _ latest rest hs
      refine ⟨latest, hmem, hmax, ?_⟩
      intro logFile hlf hread hlne hnl hfilter hwf
      unfold changesHandler
      rw [hld]
      simp only []
      rw [if_pos hmatch, hs]
      simp only []
      rw [hlf]
      split
      case _ heq =>
        exact absurd heq (by simp)
      case _ lf heq =>
        injection heq with hlf2
        subst hlf2
        have hsplit : splitOnChar '\n' (interC '\n' lines) = lines :=
          splitOnChar_interC hlne hnl
        rw [hread, hsplit, hfilter, takeLast_map, List.filterMap_map]
        congr 1
        apply filterMap_id_of_some
        intro e he
        have hwfe : ChangeLineOK e := hwf e (List.drop_subset _ _ he)
        show (searchChange (renderChangeLine e)).map
          (fun pr => ({ timestamp := pr.1, file := pr.2 } : RecentChange)) = some e
        rw [searchChange_render hwfe]
        rfl

/-- Witness for C8 on two matching log directories whose logs differ: the
response carries the entry of the more recently modified directory (mtime 5),
not the older one's. -/
theorem changesHandler_correct_witness :
    (changesHandler
      { watchPath := strL ("/proj"),
        logDirs := some [strL ("ldm_proj_1"), strL ("ldm_proj_2")],
        dirMtime := fun d => if d = strL ("ldm_proj_2") then 5 else 1,
        filesIn := fun _ => [strL ("a.log")],
        readLog := fun d _ => if d = strL ("ldm_proj_2")
          then renderChangeLine { timestamp := strL ("t2"), file := strL ("f2") }
          else renderChangeLine { timestamp := strL ("t1"), file := strL ("f1") },
        manifestMtime := none }).recentChanges =
      [{ timestamp := strL ("t2"), file := strL ("f2") }] := by
  obtain ⟨latest, hmem, hmax, himp⟩ := changesHandler_correct.2.2.2.2
    { watchPath := strL ("/proj"),
      logDirs := some [strL ("ldm_proj_1"), strL ("ldm_proj_2")],
      dirMtime := fun d => if d = strL ("ldm_proj_2") then 5 else 1,
      filesIn := fun _ => [strL ("a.log")],
      readLog := fun d _ => if d = strL ("ldm_proj_2")
        then renderChangeLine { timestamp := strL ("t2"), file := strL ("f2") }
        else renderChangeLine { timestamp := strL ("t1"), file := strL ("f1") },
      manifestMtime := none }
    [strL ("ldm_proj_1"), strL ("ldm_proj_2")]
    [renderChangeLine { timestamp := strL ("t2"), file := strL ("f2") }]
    [{ timestamp := strL ("t2"), file := strL ("f2") }]
    rfl (by decide)
  rcases List.mem_cons.mp (List.mem_filter.mp hmem).1 with h1 | h1
  · exfalso
    have hd2 := hmax (strL ("ldm_proj_2")) (by decide)
    rw [h1] at hd2
    exact absurd hd2 (by decide)
  · rcases List.mem_cons.mp h1 with h2 | h2
    · subst h2
      have h := himp (strL ("a.log")) (by decide) (by decide) (by decide) (by decide)
        (by decide) (by decide)
      exact h.trans (by decide)
    · simp at h2

/-! ## Claim C1: manifest parsing over the §6 grammar -/

theorem takeW_length_add_dropW_length (p : Char → Bool) (l : Str) :
    (takeW p l).length + (dropW p l).length = l.length := by
  conv_rhs => rw [← takeW_append_dropW p l]
  rw [List.length_append]

theorem drop_takeW_length (p : Char → Bool) (l : Str) :
    l.drop (takeW p l).length = dropW p l := by
  induction l with
  | nil => rfl
  | cons c cs ih =>
    by_cases hc : p c = true
    · rw [takeW_cons, if_pos hc, dropW_cons, if_pos hc, List.length_cons,
        List.drop_succ_cons, ih]
    · simp only [Bool.not_eq_true] at hc
      rw [takeW_cons_false _ hc, dropW_cons_false _ hc, List.length_nil, List.drop_zero]

theorem dropW_idem (p : Char → Bool) (l : Str) : dropW p (dropW p l) = dropW p l := by
  cases h : dropW p l with
  | nil => rfl
  | cons c cs => rw [dropW_cons_false _ (dropW_head_false h)]

theorem jsTrim_trimLeft (l : Str) : jsTrim (jsTrimLeft l) = jsTrim l := by
  unfold jsTrim jsTrimLeft
  rw [dropW_idem]

theorem mem_of_mem_dropW {p : Char → Bool} {l : Str} {c : Char}
    (h : c ∈ dropW p l) : c ∈ l := by
  induction l with
  | nil => simp at h
  | cons d ds ih =>
    by_cases hd : p d = true
    · rw [dropW_cons, if_pos hd] at h
      exact List.mem_cons_of_mem d (ih h)
    · simp only [Bool.not_eq_true] at hd
      rwa [dropW_cons_false _ hd] at h

theorem matchModifiedTail_space {md : Str} (hne : md ≠ []) (hn : '\n' ∉ md)
    (hr : '\r' ∉ md) :
    ∃ m, matchModifiedTail (' ' :: md) = some m ∧ jsTrim m = jsTrim md := by
  unfold matchModifiedTail
  have htw : takeW isJsSpace (' ' :: md) = ' ' :: takeW isJsSpace md := by
    rw [takeW_cons]
    simp [isJsSpace]
  have hLpos : 0 < md.length := List.length_pos.mpr hne
  have hsum := takeW_length_add_dropW_length isJsSpace md
  have hwle : (takeW isJsSpace md).length ≤ md.length := by omega
  rw [htw]
  simp only [List.length_cons, List.length_cons, Nat.add_eq_zero, Nat.succ_ne_zero,
    and_false, if_false]
  by_cases hcase : (takeW isJsSpace md).length < md.length
  · have hmin : min ((takeW isJsSpace md).length + 1) (md.length + 1 - 1) =
        (takeW isJsSpace md).length + 1 := by omega
    rw [hmin, List.drop_succ_cons, drop_takeW_length]
    have hdne : dropW isJsSpace md ≠ [] := by
      intro hc
      rw [hc] at hsum
      simp at hsum
      omega
    have hn2 : (dropW isJsSpace md).contains '\n' = false := by
      simpa using fun hc => hn (mem_of_mem_dropW hc)
    have hr2 : (dropW isJsSpace md).contains '\r' = false := by
      simpa using fun hc => hr (mem_of_mem_dropW hc)
    rw [if_neg hdne, hn2, hr2]
    exact ⟨dropW isJsSpace md, rfl, jsTrim_trimLeft md⟩
  · have hweq : (takeW isJsSpace md).length = md.length := by omega
    have hall : ∀ c ∈ md, isJsSpace c = true := by
      rw [← @dropW_eq_nil_iff isJsSpace md]
      have : (dropW isJsSpace md).length = 0 := by omega
      exact List.length_eq_zero.mp this
    have hmin : min ((takeW isJsSpace md).length + 1) (md.length + 1 - 1) =
        md.length := by omega
    rw [hmin]
    have hlast := List.dropLast_append_getLast hne
    have hdrop : md.drop (md.length - 1) = [md.getLast hne] := by
      conv_lhs => rw [← hlast]
      rw [List.length_append, List.length_singleton, List.length_dropLast,
        Nat.add_sub_cancel]
      have h2 : md.length - 1 = md.dropLast.length := (List.length_dropLast md).symm
      rw [h2, List.drop_left]
    have hdrop2 : (' ' :: md).drop md.length = md.drop (md.length - 1) := by
      cases hmd : md with
      | nil => exact absurd hmd hne
      | cons a as =>
        subst hmd
        simp only [List.length_cons, List.drop_succ_cons, Nat.add_sub_cancel]
    rw [hdrop2, hdrop]
    have hlm : md.getLast hne ∈ md := List.getLast_mem hne
    have hn2 : ([md.getLast hne] : Str).contains '\n' = false := by
      simp only [List.contains_cons, List.contains_nil, Bool.or_false, beq_eq_false_iff_ne]
      intro hc
      exact hn (by rw [hc]; exact hlm)
    have hr2 : ([md.getLast hne] : Str).contains '\r' = false := by
      simp only [List.contains_cons, List.contains_nil, Bool.or_false, beq_eq_false_iff_ne]
      intro hc
      exact hr (by rw [hc]; exact hlm)
    rw [if_neg (by simp), hn2, hr2]
    refine ⟨[md.getLast hne], rfl, ?_⟩
    have h1 : jsTrim [md.getLast hne] = [] := by
      unfold jsTrim jsTrimLeft
      rw [dropW_all (fun c hc => by
        rcases List.mem_singleton.mp hc with rfl
        exact hall _ hlm)]
      rfl
    have h2 : jsTrim md = [] := by
      unfold jsTrim jsTrimLeft
      rw [dropW_all hall]
      rfl
    rw [h1, h2]

theorem matchFileLine_render {r : MRecord} (h : MRecordOK r) :
    matchFileLine (renderRecordLine r) = some (recordOf r) := by
  obtain ⟨hp, hq, hpn, hds, hdig, hmne, hmn, hmr⟩ := h
  have hqchars : ∀ x ∈ r.path, (fun c => !(c == '"')) x = true := by
    intro x hx
    simp only [Bool.not_eq_true']
    exact beq_eq_false_iff_ne.mpr (fun hcc => hq (hcc ▸ hx))
  have htakeP : ∀ X : Str, takeW (fun c => !(c == '"')) (r.path ++ '"' :: X) = r.path := by
    intro X
    rw [takeW_append_all _ hqchars, takeW_cons_false _ (by simp), List.append_nil]
  have hdropP : ∀ X : Str, dropW (fun c => !(c == '"')) (r.path ++ '"' :: X) = '"' :: X := by
    intro X
    rw [dropW_append_all _ hqchars, dropW_cons_false _ (by simp)]
  have htakeD : ∀ X : Str, takeW isDigitCh (r.sizeDigits ++ ' ' :: X) = r.sizeDigits := by
    intro X
    rw [takeW_append_all _ hdig, takeW_cons_false _ (by decide), List.append_nil]
  have hdropD : ∀ X : Str, dropW isDigitCh (r.sizeDigits ++ ' ' :: X) = ' ' :: X := by
    intro X
    rw [dropW_append_all _ hdig, dropW_cons_false _ (by decide)]
  obtain ⟨m, hm, hmtrim⟩ := matchModifiedTail_space hmne hmn hmr
  have hq1 : ∀ X : Str, expectStr (strL ("\"")) ('"' :: X) = some X :=
    fun X => expectStr_append (strL ("\"")) X
  have hpar : ∀ X : Str, expectStr (strL ("(")) ('(' :: X) = some X :=
    fun X => expectStr_append (strL ("(")) X
  have hdash : ∀ X : Str, expectStr (strL ("-")) ('-' :: X) = some X :=
    fun X => expectStr_append (strL ("-")) X
  have hbytes : ∀ X : Str, expectStr (strL ("bytes)")) (strL ("bytes)") ++ X) = some X :=
    fun X => expectStr_append (strL ("bytes)")) X
  have hmod : ∀ X : Str, expectStr (strL ("Modified:")) (strL ("Modified:") ++ X) = some X :=
    fun X => expectStr_append (strL ("Modified:")) X
  have hb : ∀ X : Str, dropW isJsSpace (strL ("bytes)") ++ X) = strL ("bytes)") ++ X :=
    fun X => dropW_cons_false _ (by decide)
  have hM : ∀ X : Str, dropW isJsSpace (strL ("Modified:") ++ X) = strL ("Modified:") ++ X :=
    fun X => dropW_cons_false _ (by decide)
  have hsp : ∀ X : Str, strL (" bytes) - Modified: ") ++ X =
      ' ' :: (strL ("bytes)") ++ (' ' :: ('-' :: (' ' :: (strL ("Modified:") ++ (' ' :: X)))))) :=
    fun X => rfl
  simp only [matchFileLine, renderRecordLine, List.cons_append, List.append_assoc, hsp,
    Bind.bind, Option.bind, hq1, hpar, hdash, hbytes, hmod, htakeP, hdropP, htakeD, hdropD,
    hb, hM, hm, hmtrim, ws1, isJsSpace, recordOf]
  simp [hp, hds, hq1, hpar, htakeD, hdropD, hb, hM, hbytes, hmod, hdash, hm, hmtrim, dropW_cons,
    recordOf, isJsSpace]

theorem pstep_record {st : PState} {r : MRecord} (h : MRecordOK r)
    (hfl : st.inFileListing = true) (hsm : st.inSummary = false) :
    pstep st (renderRecordLine r) = { st with files := st.files ++ [recordOf r] } := by
  obtain ⟨X, hX⟩ : ∃ X, renderRecordLine r = '"' :: X :=
    ⟨r.path ++ '"' :: ' ' :: '(' :: (r.sizeDigits ++ (strL (" bytes) - Modified: ") ++ r.modified)),
      by simp [renderRecordLine]⟩
  have h1 : jsStartsWith (strL ("Timestamp:")) (renderRecordLine r) = false := by
    rw [hX]; simp [strL, jsStartsWith]
  have h2 : jsStartsWith (strL ("Directory:")) (renderRecordLine r) = false := by
    rw [hX]; simp [strL, jsStartsWith]
  have h3 : jsStartsWith (strL ("File Listing:")) (renderRecordLine r) = false := by
    rw [hX]; simp [strL, jsStartsWith]
  have h4 : jsStartsWith (strL ("Summary:")) (renderRecordLine r) = false := by
    rw [hX]; simp [strL, jsStartsWith]
  have h5 : jsStartsWith (strL ("-------------")) (renderRecordLine r) = false := by
    rw [hX]; simp [strL, jsStartsWith]
  have h6 : jsStartsWith (strL ("--------")) (renderRecordLine r) = false := by
    rw [hX]; simp [strL, jsStartsWith]
  have htrim : ¬ jsTrim (renderRecordLine r) = [] := by
    apply jsTrim_ne_nil
    exact ⟨'"', by rw [hX]; simp, by decide⟩
  simp [pstep, pstepTail, h1, h2, h3, h4, h5, h6, hsm, hfl, htrim, matchFileLine_render h]

theorem pstep_ts {st : PState} (ts : Str) (hfl : st.inFileListing = false)
    (hsm : st.inSummary = false) :
    pstep st (strL ("Timestamp: ") ++ ts) = { st with timestamp := some (jsTrim (' ' :: ts)) } := by
  have h1 : jsStartsWith (strL ("Timestamp:")) (strL ("Timestamp: ") ++ ts) = true := by
    simp [strL, jsStartsWith]
  have hdrop : (strL ("Timestamp: ") ++ ts).drop 10 = ' ' :: ts := rfl
  simp [pstep, pstepTail, h1, hdrop, hfl, hsm]

theorem pstep_dir {st : PState} (dir : Str) (hfl : st.inFileListing = false)
    (hsm : st.inSummary = false) :
    pstep st (strL ("Directory: ") ++ dir) =
      { st with directory := some (jsTrim (' ' :: dir)) } := by
  have h1 : jsStartsWith (strL ("Timestamp:")) (strL ("Directory: ") ++ dir) = false := by
    simp [strL, jsStartsWith]
  have h2 : jsStartsWith (strL ("Directory:")) (strL ("Directory: ") ++ dir) = true := by
    simp [strL, jsStartsWith]
  have hdrop : (strL ("Directory: ") ++ dir).drop 10 = ' ' :: dir := rfl
  simp [pstep, pstepTail, h1, h2, hdrop, hfl, hsm]

theorem pstep_fileListing (st : PState) :
    pstep st (strL ("File Listing:")) = { st with inFileListing := true, inSummary := false } := by
  simp [pstep, strL, jsStartsWith]

theorem pstep_summaryLine (st : PState) :
    pstep st (strL ("Summary:")) = { st with inFileListing := false, inSummary := true } := by
  simp [pstep, strL, jsStartsWith]

theorem pstep_dash13 (st : PState) : pstep st (strL ("-------------")) = st := by
  simp [pstep, strL, jsStartsWith]

theorem pstep_dash8 (st : PState) : pstep st (strL ("--------")) = st := by
  simp [pstep, strL, jsStartsWith]

theorem dropW_ws_space_digits {tf : Str} (htf : DigitsOK tf) :
    dropW isJsSpace (' ' :: tf) = tf := by
  obtain ⟨hne, hall⟩ := htf
  obtain ⟨d, ds, rfl⟩ : ∃ d ds, tf = d :: ds := by
    cases tf with
    | nil => exact absurd rfl hne
    | cons d ds => exact ⟨d, ds, rfl⟩
  rw [dropW_cons, if_pos (by decide), dropW_cons_false _ (digit_not_ws (hall d (by simp)))]

theorem matchTotalCount_hit {label rest : Str} (tf : Str) (htf : DigitsOK tf)
    (hsplit : rest = label ++ (' ' :: tf)) :
    matchTotalCount label rest = some (digitsToNat tf) := by
  subst hsplit
  unfold matchTotalCount
  rw [expectStr_append]
  split
  case _ heq =>
    exact absurd heq (by simp)
  case _ rr heq =>
    injection heq with hrr
    subst hrr
    simp only []
    rw [dropW_ws_space_digits htf, takeW_all htf.2, if_neg htf.1]

theorem pstep_totalFiles {st : PState} {tf : Str} (htf : DigitsOK tf)
    (hfl : st.inFileListing = false) (hsm : st.inSummary = true) :
    pstep st (strL ("Total Files: ") ++ tf) = { st with total_files := digitsToNat tf } := by
  have h1 : jsStartsWith (strL ("Timestamp:")) (strL ("Total Files: ") ++ tf) = false := by
    simp [strL, jsStartsWith]
  have h2 : jsStartsWith (strL ("Directory:")) (strL ("Total Files: ") ++ tf) = false := by
    simp [strL, jsStartsWith]
  have h3 : jsStartsWith (strL ("File Listing:")) (strL ("Total Files: ") ++ tf) = false := by
    simp [strL, jsStartsWith]
  have h4 : jsStartsWith (strL ("Summary:")) (strL ("Total Files: ") ++ tf) = false := by
    simp [strL, jsStartsWith]
  have h5 : jsStartsWith (strL ("-------------")) (strL ("Total Files: ") ++ tf) = false := by
    simp [strL, jsStartsWith]
  have h6 : jsStartsWith (strL ("--------")) (strL ("Total Files: ") ++ tf) = false := by
    simp [strL, jsStartsWith]
  have htrim : ¬ jsTrim (strL ("Total Files: ") ++ tf) = [] := by
    apply jsTrim_ne_nil
    exact ⟨'T', by simp [strL], by decide⟩
  have hhit : matchTotalCount (strL ("Total Files:")) (strL ("Total Files: ") ++ tf) =
      some (digitsToNat tf) := matchTotalCount_hit tf htf (by simp [strL])
  have hmiss : matchTotalCount (strL ("Total Directories:")) (strL ("Total Files: ") ++ tf) =
      none := by
    unfold matchTotalCount expectStr
    have : jsStartsWith (strL ("Total Directories:")) (strL ("Total Files: ") ++ tf) = false := by
      simp [strL, jsStartsWith]
    rw [this]
    simp
  simp [pstep, pstepTail, h1, h2, h3, h4, h5, h6, hfl, hsm, htrim, hhit, hmiss]

theorem pstep_totalDirs {st : PState} {td : Str} (htd : DigitsOK td)
    (hfl : st.inFileListing = false) (hsm : st.inSummary = true) :
    pstep st (strL ("Total Directories: ") ++ td) =
      { st with total_directories := digitsToNat td } := by
  have h1 : jsStartsWith (strL ("Timestamp:")) (strL ("Total Directories: ") ++ td) = false := by
    simp [strL, jsStartsWith]
  have h2 : jsStartsWith (strL ("Directory:")) (strL ("Total Directories: ") ++ td) = false := by
    simp [strL, jsStartsWith]
  have h3 : jsStartsWith (strL ("File Listing:")) (strL ("Total Directories: ") ++ td) = false := by
    simp [strL, jsStartsWith]
  have h4 : jsStartsWith (strL ("Summary:")) (strL ("Total Directories: ") ++ td) = false := by
    simp [strL, jsStartsWith]
  have h5 : jsStartsWith (strL ("-------------")) (strL ("Total Directories: ") ++ td) = false := by
    simp [strL, jsStartsWith]
  have h6 : jsStartsWith (strL ("--------")) (strL ("Total Directories: ") ++ td) = false := by
    simp [strL, jsStartsWith]
  have htrim : ¬ jsTrim (strL ("Total Directories: ") ++ td) = [] := by
    apply jsTrim_ne_nil
    exact ⟨'T', by simp [strL], by decide⟩
  have hhit : matchTotalCount (strL ("Total Directories:"))
      (strL ("Total Directories: ") ++ td) = some (digitsToNat td) :=
    matchTotalCount_hit td htd (by simp [strL])
  have hmiss : matchTotalCount (strL ("Total Files:")) (strL ("Total Directories: ") ++ td) =
      none := by
    unfold matchTotalCount expectStr
    have : jsStartsWith (strL ("Total Files:")) (strL ("Total Directories: ") ++ td) = false := by
      simp [strL, jsStartsWith]
    rw [this]
    simp
  simp [pstep, pstepTail, h1, h2, h3, h4, h5, h6, hfl, hsm, htrim, hhit, hmiss]

theorem foldl_pstep_records {records : List MRecord} (hok : ∀ r ∈ records, MRecordOK r) :
    ∀ st : PState, st.inFileListing = true → st.inSummary = false →
    List.foldl pstep st (records.map renderRecordLine) =
      { st with files := st.files ++ records.map recordOf } := by
  induction records with
  | nil => intro st _ _; simp
  | cons r rs ih =>
    intro st hfl hsm
    rw [List.map_cons, List.foldl_cons, pstep_record (hok r (by simp)) hfl hsm,
      ih (fun q hq => hok q (by simp [hq])) { st with files := st.files ++ [recordOf r] } hfl hsm]
    simp

theorem nl_notin_renderRecordLine {r : MRecord} (h : MRecordOK r) :
    '\n' ∉ renderRecordLine r := by
  obtain ⟨hp, hq, hpn, hds, hdig, hmne, hmn, hmr⟩ := h
  intro hmem
  simp [renderRecordLine, strL] at hmem
  rcases hmem with h1 | h1 | h1
  · exact hpn h1
  · exact absurd (hdig _ h1) (by decide)
  · exact hmn h1

theorem nl_notin_manifestLines {ts dir : Str} {records : List MRecord}
    {summary : Option (Str × Str)} (hts : '\n' ∉ ts) (hdir : '\n' ∉ dir)
    (hrec : ∀ r ∈ records, MRecordOK r)
    (hsum : ∀ tf td, summary = some (tf, td) → DigitsOK tf ∧ DigitsOK td) :
    ∀ l ∈ manifestLines ts dir records summary, '\n' ∉ l := by
  intro l hl
  unfold manifestLines at hl
  rcases List.mem_append.mp hl with hl2 | hl2
  · rcases List.mem_append.mp hl2 with hl3 | hl3
    · simp only [List.mem_cons, List.not_mem_nil, or_false] at hl3
      rcases hl3 with rfl | rfl | rfl | rfl | rfl | rfl | rfl
      · decide
      · decide
      · decide
      · intro hmem
        rcases List.mem_append.mp hmem with hmem | hmem
        · exact absurd hmem (by decide)
        · exact hts hmem
      · intro hmem
        rcases List.mem_append.mp hmem with hmem | hmem
        · exact absurd hmem (by decide)
        · exact hdir hmem
      · decide
      · decide
    · obtain ⟨r, hr, hrl⟩ := List.mem_map.mp hl3
      subst hrl
      exact nl_notin_renderRecordLine (hrec r hr)
  · cases hsummary : summary with
    | none => rw [hsummary] at hl2; simp at hl2
    | some p =>
      obtain ⟨tf, td⟩ := p
      obtain ⟨htf, htd⟩ := hsum tf td hsummary
      rw [hsummary] at hl2
      simp only [List.mem_cons, List.not_mem_nil, or_false] at hl2
      rcases hl2 with rfl | rfl | rfl | rfl
      · decide
      · decide
      · intro hmem
        rcases List.mem_append.mp hmem with hmem | hmem
        · exact absurd hmem (by decide)
        · exact absurd (htf.2 _ hmem) (by decide)
      · intro hmem
        rcases List.mem_append.mp hmem with hmem | hmem
        · exact absurd hmem (by decide)
        · exact absurd (htd.2 _ hmem) (by decide)

theorem parseManifestState_render (ts dir : Str) (records : List MRecord)
    (summary : Option (Str × Str))
    (hts : '\n' ∉ ts) (hdir : '\n' ∉ dir)
    (hrec : ∀ r ∈ records, MRecordOK r)
    (hsum : ∀ tf td, summary = some (tf, td) → DigitsOK tf ∧ DigitsOK td) :
    parseManifestState (manifestText ts dir records summary) =
      { timestamp := some (jsTrim (' ' :: ts)),
        directory := some (jsTrim (' ' :: dir)),
        total_files := match summary with | some (tf, _) => digitsToNat tf | none => 0,
        total_directories := match summary with | some (_, td) => digitsToNat td | none => 0,
        files := records.map recordOf,
        inFileListing := match summary with | some _ => false | none => true,
        inSummary := match summary with | some _ => true | none => false } := by
  unfold parseManifestState manifestText
  rw [splitOnChar_interC (by
      unfold manifestLines
      simp)
    (nl_notin_manifestLines hts hdir hrec hsum)]
  unfold manifestLines
  rw [List.foldl_append, List.foldl_append]
  rw [List.foldl_cons, List.foldl_cons, List.foldl_cons]
  have h3 : pstep (pstep (pstep initPState
      (List.replicate 70 '='))
      (strL ("LHI Directory Monitor - MANIFEST")))
      (List.replicate 70 '=') =
      initPState := rfl
  rw [h3, List.foldl_cons, pstep_ts ts rfl rfl, List.foldl_cons, pstep_dir dir rfl rfl,
    List.foldl_cons, pstep_fileListing, List.foldl_cons, pstep_dash13, List.foldl_nil]
  rw [foldl_pstep_records hrec _ rfl rfl]
  cases summary with
  | none =>
    rw [List.foldl_nil]
    rfl
  | some p =>
    obtain ⟨tf, td⟩ := p
    obtain ⟨htf, htd⟩ := hsum tf td rfl
    rw [List.foldl_cons, pstep_summaryLine, List.foldl_cons, pstep_dash8,
      List.foldl_cons, pstep_totalFiles htf rfl rfl,
      List.foldl_cons, pstep_totalDirs htd rfl rfl, List.foldl_nil]
    rfl

/-- Claim C1: on every well-formed manifest text of the §6 grammar,
`parseTextManifest` returns exactly the embedded `Total Files` and
`Total Directories` when the summary section is present with non-zero values;
a zero or absent summary value falls back to the number of parsed file
records for `total_files`, and to the size of the set of distinct proper
slash-separated path segments of the records (the `dirSetOfFiles`
derivation, computed only from a non-empty record list) for
`total_directories`. -/
theorem parseTextManifest_grammar (ts dir : Str) (records : List MRecord)
    (summary : Option (Str × Str))
    (hts : '\n' ∉ ts) (hdir : '\n' ∉ dir)
    (hrec : ∀ r ∈ records, MRecordOK r)
    (hsum : ∀ tf td, summary = some (tf, td) → DigitsOK tf ∧ DigitsOK td) :
    (∀ tf td, summary = some (tf, td) →
      (digitsToNat tf ≠ 0 →
        (parseTextManifest (manifestText ts dir records summary)).total_files =
          digitsToNat tf) ∧
      (digitsToNat tf = 0 →
        (parseTextManifest (manifestText ts dir records summary)).total_files =
          records.length) ∧
      (digitsToNat td ≠ 0 →
        (parseTextManifest (manifestText ts dir records summary)).total_directories =
          digitsToNat td) ∧
      (digitsToNat td = 0 →
        (parseTextManifest (manifestText ts dir records summary)).total_directories =
          (dirSetOfFiles (records.map recordOf)).length)) ∧
    (summary = none →
      (parseTextManifest (manifestText ts dir records summary)).total_files =
        records.length ∧
      (parseTextManifest (manifestText ts dir records summary)).total_directories =
        (dirSetOfFiles (records.map recordOf)).length) := by
  have hstate := parseManifestState_render ts dir records summary hts hdir hrec hsum
  constructor
  · intro tf td hs
    subst hs
    refine ⟨?_, ?_, ?_, ?_⟩
    · intro hnz
      simp [parseTextManifest, hstate, hnz]
    · intro hz
      simp [parseTextManifest, hstate, hz]
    · intro hnz
      simp [parseTextManifest, hstate, hnz]
    · intro hz
      cases hre : records with
      | nil =>
        subst hre
        simp [parseTextManifest, hstate, hz, dirSetOfFiles]
      | cons r rs =>
        subst hre
        simp [parseTextManifest, hstate, hz]
  · intro hs
    subst hs
    constructor
    · simp [parseTextManifest, hstate]
    · cases hre : records with
      | nil =>
        subst hre
        simp [parseTextManifest, hstate, dirSetOfFiles]
      | cons r rs =>
        subst hre
        simp [parseTextManifest, hstate]

/-- Witness for C1: a one-record manifest with non-zero summary totals, and
the same manifest with a zeroed summary falling back to derived counts. -/
theorem parseTextManifest_grammar_witness :
    (parseTextManifest (manifestText (strL ("t")) (strL ("/d"))
      [{ path := strL ("a/b.txt"), sizeDigits := strL ("42"), modified := strL ("m") }]
      (some (strL ("3"), strL ("7"))))).total_files = 3 ∧
    (parseTextManifest (manifestText (strL ("t")) (strL ("/d"))
      [{ path := strL ("a/b.txt"), sizeDigits := strL ("42"), modified := strL ("m") }]
      (some (strL ("3"), strL ("7"))))).total_directories = 7 ∧
    (parseTextManifest (manifestText (strL ("t")) (strL ("/d"))
      [{ path := strL ("a/b.txt"), sizeDigits := strL ("42"), modified := strL ("m") }]
      (some (strL ("0"), strL ("0"))))).total_files = 1 ∧
    (parseTextManifest (manifestText (strL ("t")) (strL ("/d"))
      [{ path := strL ("a/b.txt"), sizeDigits := strL ("42"), modified := strL ("m") }]
      (some (strL ("0"), strL ("0"))))).total_directories = 1 := by
  have h1 := (parseTextManifest_grammar (strL ("t")) (strL ("/d"))
    [{ path := strL ("a/b.txt"), sizeDigits := strL ("42"), modified := strL ("m") }]
    (some (strL ("3"), strL ("7"))) (by decide) (by decide)
    (by intro r hr; simp at hr; subst hr; decide)
    (by intro tf td h; injection h with h2; injection h2 with h3 h4; subst h3; subst h4
        exact ⟨by decide, by decide⟩)).1 (strL ("3")) (strL ("7")) rfl
  have h2 := (parseTextManifest_grammar (strL ("t")) (strL ("/d"))
    [{ path := strL ("a/b.txt"), sizeDigits := strL ("42"), modified := strL ("m") }]
    (some (strL ("0"), strL ("0"))) (by decide) (by decide)
    (by intro r hr; simp at hr; subst hr; decide)
    (by intro tf td h; injection h with h2; injection h2 with h3 h4; subst h3; subst h4
        exact ⟨by decide, by decide⟩)).1 (strL ("0")) (strL ("0")) rfl
  exact ⟨(h1.1 (by decide)).trans (by decide), (h1.2.2.1 (by decide)).trans (by decide),
    (h2.2.1 (by decide)).trans (by decide), (h2.2.2.2 (by decide)).trans (by decide)⟩

/-! ## Claim C10: structural invariants of the tree builder -/

theorem processParts_cons (f : FileRecord) (part : Str) (rest : List Str) (cur : Str)
    (level : List TreeNode) :
    processParts f (part :: rest) cur level =
      (match level.find? (fun e => e.path = joinStep cur part) with
       | some existing =>
         match existing.children with
         | some cs =>
           replaceFirst (joinStep cur part)
             (TreeNode.mk existing.path existing.type existing.size existing.modified
               (some (processParts f rest (joinStep cur part) cs))) level
         | none => processParts f rest (joinStep cur part) level
       | none =>
         if (rest = []) && !(f.type = tyDirectory) then
           processParts f rest (joinStep cur part)
             (level ++ [TreeNode.mk (joinStep cur part) tyFile (some f.size)
               (some f.modified) none])
         else
           level ++ [TreeNode.mk (joinStep cur part) tyDirectory
             (if (rest = []) then some f.size else none)
             (if (rest = []) then some f.modified else none)
             (some (processParts f rest (joinStep cur part) []))]) := rfl

theorem find?_path_split {level : List TreeNode} {n : TreeNode} {p : Str}
    (h : level.find? (fun e => e.path = p) = some n) :
    ∃ l1 l2, level = l1 ++ n :: l2 ∧ (∀ m ∈ l1, m.path ≠ p) ∧ n.path = p := by
  induction level with
  | nil => simp at h
  | cons x xs ih =>
    rw [List.find?_cons] at h
    by_cases hx : x.path = p
    · rw [show decide (x.path = p) = true by simp [hx]] at h
      have h2 : some x = some n := h
      injection h2 with h3
      subst h3
      exact ⟨[], xs, rfl, by simp, hx⟩
    · rw [show decide (x.path = p) = false by simp [hx]] at h
      have h2 : xs.find? (fun e => e.path = p) = some n := h
      obtain ⟨l1, l2, heq, hmis, hp⟩ := ih h2
      exact ⟨x :: l1, l2, by rw [heq]; rfl, by
        intro m hm
        rcases List.mem_cons.mp hm with rfl | hm
        · exact hx
        · exact hmis m hm, hp⟩

theorem replaceFirst_split {l1 : List TreeNode} {n : TreeNode} {p : Str}
    (l2 : List TreeNode) (n' : TreeNode) (h1 : ∀ m ∈ l1, m.path ≠ p) (h2 : n.path = p) :
    replaceFirst p n' (l1 ++ n :: l2) = l1 ++ n' :: l2 := by
  induction l1 with
  | nil => simp [replaceFirst, h2]
  | cons x xs ih =>
    show replaceFirst p n' (x :: (xs ++ n :: l2)) = x :: (xs ++ n' :: l2)
    unfold replaceFirst
    rw [if_neg (h1 x (by simp)), ih (fun m hm => h1 m (by simp [hm]))]

theorem WFLevel_mem_node {level : List TreeNode} {n : TreeNode}
    (h : WFLevel level) (hm : n ∈ level) : WFNode n := by
  induction level with
  | nil => simp at hm
  | cons x xs ih =>
    cases h with
    | cons _ _ hx hxs hdist =>
      rcases List.mem_cons.mp hm with rfl | hm
      · exact hx
      · exact ih hxs hm

theorem WFLevel_replace_middle {l1 l2 : List TreeNode} {n n' : TreeNode}
    (h : WFLevel (l1 ++ n :: l2)) (hn' : WFNode n') (hp : n'.path = n.path) :
    WFLevel (l1 ++ n' :: l2) := by
  induction l1 with
  | nil =>
    cases h with
    | cons _ _ hx hxs hdist =>
      exact WFLevel.cons n' l2 hn' hxs (fun m hm => by rw [hp]; exact hdist m hm)
  | cons x xs ih =>
    cases h with
    | cons _ _ hx hxs hdist =>
      refine WFLevel.cons x (xs ++ n' :: l2) hx (ih hxs) ?_
      intro m hm
      rcases List.mem_append.mp hm with hm | hm
      · exact hdist m (List.mem_append_left _ hm)
      · rcases List.mem_cons.mp hm with rfl | hm
        · rw [hp]
          exact hdist n (List.mem_append_right _ (by simp))
        · exact hdist m (List.mem_append_right _ (by simp [hm]))

theorem WFLevel_append_singleton {level : List TreeNode} {n : TreeNode}
    (h : WFLevel level) (hn : WFNode n) (hdist : ∀ m ∈ level, m.path ≠ n.path) :
    WFLevel (level ++ [n]) := by
  induction level with
  | nil => exact WFLevel.cons n [] hn WFLevel.nil (by simp)
  | cons x xs ih =>
    cases h with
    | cons _ _ hx hxs hd =>
      refine WFLevel.cons x (xs ++ [n]) hx (ih hxs (fun m hm => hdist m (by simp [hm]))) ?_
      intro m hm
      rcases List.mem_append.mp hm with hm | hm
      · exact hd m hm
      · rcases List.mem_singleton.mp hm with rfl
        exact fun hc => hdist x (by simp) hc.symm

theorem WF_processParts (f : FileRecord) :
    ∀ ps cur level, WFLevel level → WFLevel (processParts f ps cur level) := by
  intro ps
  induction ps with
  | nil => intro cur level h; exact h
  | cons part rest ih =>
    intro cur level h
    rw [processParts_cons]
    split
    next existing hfind =>
      split
      next cs hch =>
        obtain ⟨l1, l2, heq, hmis, hp⟩ := find?_path_split hfind
        have hwf : WFNode existing := WFLevel_mem_node h (by rw [heq]; simp)
        cases hwf with
        | file p sz md =>
          rw [show (TreeNode.mk p tyFile (some sz) (some md) none).children = none from rfl]
            at hch
          simp at hch
        | dir p sz md cs' hcs' =>
          rw [show (TreeNode.mk p tyDirectory sz md (some cs')).children = some cs' from rfl]
            at hch
          injection hch with hcs
          subst hcs
          rw [heq, replaceFirst_split l2 _ hmis hp]
          exact @WFLevel_replace_middle l1 l2 (TreeNode.mk p tyDirectory sz md (some cs'))
            (TreeNode.mk (TreeNode.mk p tyDirectory sz md (some cs')).path
              (TreeNode.mk p tyDirectory sz md (some cs')).type
              (TreeNode.mk p tyDirectory sz md (some cs')).size
              (TreeNode.mk p tyDirectory sz md (some cs')).modified
              (some (processParts f rest (joinStep cur part) cs')))
            (heq ▸ h) (WFNode.dir p sz md _ (ih _ _ hcs')) rfl
      next hch => exact ih _ _ h
    next hfind =>
      have hdist : ∀ m ∈ level, m.path ≠ joinStep cur part := by
        intro m hm
        have := List.find?_eq_none.mp hfind m hm
        simpa using this
      by_cases hlast : ((rest = []) && !(f.type = tyDirectory)) = true
      · rw [if_pos hlast]
        exact ih _ _ (WFLevel_append_singleton h (WFNode.file _ _ _) hdist)
      · simp only [Bool.not_eq_true] at hlast
        rw [hlast]
        simp only [Bool.false_eq_true, if_false]
        exact WFLevel_append_singleton h
          (WFNode.dir _ _ _ _ (ih _ _ WFLevel.nil)) hdist

theorem WF_buildTree_fold (files : List FileRecord) :
    ∀ level, WFLevel level → WFLevel
      (files.foldl (fun tree file => processParts file (splitOnChar '/' file.path) [] tree)
        level) := by
  induction files with
  | nil => intro level h; exact h
  | cons f fs ih =>
    intro level h
    rw [List.foldl_cons]
    exact ih _ (WF_processParts f _ _ _ h)

theorem headersL_append (l1 l2 : List TreeNode) :
    headersL (l1 ++ l2) = headersL l1 ++ headersL l2 := by
  induction l1 with
  | nil => simp [headersL]
  | cons n ns ih =>
    cases n with
    | mk p t sz md c =>
      cases c with
      | none => simp [headersL, ih]
      | some cs => simp [headersL, ih]

theorem headers_processParts (f : FileRecord) :
    ∀ ps cur level x, x ∈ headersL level → x ∈ headersL (processParts f ps cur level) := by
  intro ps
  induction ps with
  | nil => intro cur level x h; exact h
  | cons part rest ih =>
    intro cur level x hx
    rw [processParts_cons]
    split
    next existing hfind =>
      split
      next cs hch =>
        obtain ⟨l1, l2, heq, hmis, hp⟩ := find?_path_split hfind
        rw [heq, replaceFirst_split l2 _ hmis hp]
        subst heq
        cases existing with
        | mk p t sz md c =>
          rw [show (TreeNode.mk p t sz md c).children = c from rfl] at hch
          subst hch
          rw [headersL_append] at hx ⊢
          rcases List.mem_append.mp hx with hx | hx
          · exact List.mem_append_left _ hx
          · apply List.mem_append_right
            have hdef1 : headersL (TreeNode.mk p t sz md (some cs) :: l2) =
                (p, t, sz, md) :: (headersL cs ++ headersL l2) := by simp [headersL]
            have hdef2 : headersL (TreeNode.mk p t sz md
                (some (processParts f rest (joinStep cur part) cs)) :: l2) =
                (p, t, sz, md) :: (headersL (processParts f rest (joinStep cur part) cs) ++
                  headersL l2) := by simp [headersL]
            rw [hdef1] at hx
            simp only [TreeNode.path, TreeNode.type, TreeNode.size, TreeNode.modified]
            rw [hdef2]
            rcases List.mem_cons.mp hx with rfl | hx
            · simp
            · rcases List.mem_append.mp hx with hx | hx
              · exact List.mem_cons_of_mem _ (List.mem_append_left _ (ih _ _ _ hx))
              · exact List.mem_cons_of_mem _ (List.mem_append_right _ hx)
      next hch => exact ih _ _ _ hx
    next hfind =>
      by_cases hlast : ((rest = []) && !(f.type = tyDirectory)) = true
      · rw [if_pos hlast]
        apply ih
        rw [headersL_append]
        exact List.mem_append_left _ hx
      · simp only [Bool.not_eq_true] at hlast
        rw [hlast]
        simp only [Bool.false_eq_true, if_false]
        rw [headersL_append]
        exact List.mem_append_left _ hx

/-- Claim C10: every forest built by `buildTreeFromFiles` satisfies the
structural invariant — within any sibling sequence no two nodes share a
cumulative path, file-typed nodes carry a size and a modified value and have
no children array, directory-typed nodes have a children array — and node
headers (path, type, size, modified) are never mutated by later insertions:
every header present after building some records is still present after
appending one more record. -/
theorem buildTree_invariants :
    (∀ files, WFLevel (buildTreeFromFiles files)) ∧
    (∀ files f x, x ∈ headersL (buildTreeFromFiles files) →
      x ∈ headersL (buildTreeFromFiles (files ++ [f]))) := by
  constructor
  · intro files
    exact WF_buildTree_fold files [] WFLevel.nil
  · intro files f x hx
    unfold buildTreeFromFiles at hx ⊢
    rw [List.foldl_append, List.foldl_cons, List.foldl_nil]
    exact headers_processParts f _ _ _ x hx

/-- Witness for C10's header-preservation part at concrete records. -/
theorem buildTree_invariants_witness :
    (strL ("a"), tyFile, some 1, some (strL ("m"))) ∈
      headersL (buildTreeFromFiles
        [{ path := strL ("a"), type := strL ("file"), size := 1, modified := strL ("m") },
         { path := strL ("b"), type := strL ("file"), size := 2, modified := strL ("n") }]) := by
  apply buildTree_invariants.2
    [{ path := strL ("a"), type := strL ("file"), size := 1, modified := strL ("m") }]
    { path := strL ("b"), type := strL ("file"), size := 2, modified := strL ("n") }
  simp [buildTreeFromFiles, processParts, splitOnChar, joinStep, headersL, strL, tyFile,
    tyDirectory]

/-! ## Claim C2: leaf counts and intermediate directories

The path-algebra core: cumulative paths `joinStep`/`joinFrom` over slash-free
segments decompose uniquely at the first separator. -/

theorem joinStep_ne_nil {cur seg : Str} (h : cur = [] → seg ≠ []) :
    joinStep cur seg ≠ [] := by
  unfold joinStep
  by_cases hc : cur = []
  · simpa [hc] using h hc
  · simp [hc]

theorem joinStep_inj {cur s t : Str} (h : joinStep cur s = joinStep cur t) : s = t := by
  unfold joinStep at h
  by_cases hc : cur = []
  · simpa [hc] using h
  · rw [if_neg hc, if_neg hc] at h
    have h2 := List.append_cancel_left h
    injection h2

theorem joinStep_ext_eq {cur s p t u : Str}
    (h : joinStep cur s ++ t = joinStep cur p ++ u) : s ++ t = p ++ u := by
  unfold joinStep at h
  by_cases hc : cur = []
  · simpa [hc] using h
  · rw [if_neg hc, if_neg hc, List.append_assoc, List.append_assoc] at h
    have h2 := List.append_cancel_left h
    injection h2

theorem seg_slash_eq :
    ∀ {a b x y : Str}, slashFree a → slashFree b →
      (x = [] ∨ ∃ x2, x = '/' :: x2) → (y = [] ∨ ∃ y2, y = '/' :: y2) →
      a ++ x = b ++ y → a = b ∧ x = y := by
  intro a
  induction a with
  | nil =>
    intro b x y _ hb hx hy h
    cases b with
    | nil => exact ⟨rfl, h⟩
    | cons d b2 =>
      rcases hx with rfl | ⟨x2, rfl⟩
      · rcases hy with rfl | ⟨y2, rfl⟩
        · simp at h
        · simp at h
      · have hd : d = '/' := by
          have h2 : '/' :: x2 = d :: (b2 ++ y) := by simpa using h
          exact (List.cons.inj h2).1.symm
        exact absurd (by simp [hd] : '/' ∈ d :: b2) hb
  | cons c a2 ih =>
    intro b x y ha hb hx hy h
    cases b with
    | nil =>
      rcases hy with rfl | ⟨y2, rfl⟩
      · simp at h
      · have hc : c = '/' := by
          have h2 : c :: (a2 ++ x) = '/' :: y2 := by simpa using h
          exact (List.cons.inj h2).1
        exact absurd (by simp [hc] : '/' ∈ c :: a2) ha
    | cons d b2 =>
      have h2 : c :: (a2 ++ x) = d :: (b2 ++ y) := by simpa using h
      obtain ⟨hcd, htail⟩ := List.cons.inj h2
      subst hcd
      obtain ⟨h3, h4⟩ := ih (fun hm => ha (by simp [hm])) (fun hm => hb (by simp [hm]))
        hx hy htail
      exact ⟨by rw [h3], h4⟩

theorem joinFrom_cons (cur p : Str) (q : List Str) :
    joinFrom cur (p :: q) = joinFrom (joinStep cur p) q := rfl

theorem joinFrom_shape :
    ∀ (w : List Str) (X : Str), X ≠ [] →
      ∃ t, joinFrom X w = X ++ t ∧ (t = [] ∨ ∃ t2, t = '/' :: t2) := by
  intro w
  induction w with
  | nil => intro X _; exact ⟨[], by simp [joinFrom], Or.inl rfl⟩
  | cons p w2 ih =>
    intro X hX
    have hstep : joinStep X p = X ++ '/' :: p := by simp [joinStep, hX]
    obtain ⟨t, ht, _⟩ := ih (X ++ '/' :: p) (by simp)
    refine ⟨'/' :: (p ++ t), ?_, Or.inr ⟨p ++ t, rfl⟩⟩
    rw [joinFrom_cons, hstep, ht, List.append_assoc]
    rfl

theorem joinFrom_ext_ne {X : Str} (hX : X ≠ []) {q : List Str} (hq : q ≠ []) :
    ∃ t, joinFrom X q = X ++ '/' :: t := by
  cases q with
  | nil => exact absurd rfl hq
  | cons p q2 =>
    have hstep : joinStep X p = X ++ '/' :: p := by simp [joinStep, hX]
    obtain ⟨t, ht, _⟩ := joinFrom_shape q2 (X ++ '/' :: p) (by simp)
    exact ⟨p ++ t, by rw [joinFrom_cons, hstep, ht, List.append_assoc]; rfl⟩

theorem joinFrom_ne_self {X : Str} (hX : X ≠ []) {q : List Str} (hq : q ≠ []) :
    joinFrom X q ≠ X := by
  obtain ⟨t, ht⟩ := joinFrom_ext_ne hX hq
  rw [ht]
  intro hc
  have : (X ++ '/' :: t).length = X.length := by rw [hc]
  simp at this

theorem joinFrom_inj_aux :
    ∀ (u v : List Str) (cur : Str), cur ≠ [] →
      (∀ s ∈ u, slashFree s) → (∀ s ∈ v, slashFree s) →
      joinFrom cur u = joinFrom cur v → u = v := by
  intro u
  induction u with
  | nil =>
    intro v cur hcur _ hv h
    cases v with
    | nil => rfl
    | cons q v2 =>
      obtain ⟨t, ht⟩ := @joinFrom_ext_ne cur hcur (q :: v2) (by simp)
      rw [ht] at h
      have : cur.length = (cur ++ '/' :: t).length := by
        conv_lhs => rw [show cur = joinFrom cur ([] : List Str) from rfl, h]
      simp at this
  | cons p u2 ih =>
    intro v cur hcur hu hv h
    cases v with
    | nil =>
      obtain ⟨t, ht⟩ := @joinFrom_ext_ne cur hcur (p :: u2) (by simp)
      rw [ht] at h
      have : (cur ++ '/' :: t).length = cur.length := by
        conv_rhs => rw [show cur = joinFrom cur ([] : List Str) from rfl, ← h]
      simp at this
    | cons q v2 =>
      rw [joinFrom_cons, joinFrom_cons] at h
      have hsp : joinStep cur p = cur ++ '/' :: p := by simp [joinStep, hcur]
      have hsq : joinStep cur q = cur ++ '/' :: q := by simp [joinStep, hcur]
      obtain ⟨t, ht, hts⟩ := joinFrom_shape u2 (joinStep cur p) (joinStep_ne_nil
        (fun hc => absurd hc hcur))
      obtain ⟨s, hs, hss⟩ := joinFrom_shape v2 (joinStep cur q) (joinStep_ne_nil
        (fun hc => absurd hc hcur))
      rw [ht, hs, hsp, hsq, List.append_assoc, List.append_assoc] at h
      have h2 := List.append_cancel_left h
      have h3 : p ++ t = q ++ s := by injection h2
      obtain ⟨hpq, hts2⟩ := seg_slash_eq (hu p (by simp)) (hv q (by simp)) hts hss h3
      subst hpq
      have h4 : joinFrom (joinStep cur p) u2 = joinFrom (joinStep cur p) v2 := by
        rw [ht, hs, hts2]
      have h5 := ih v2 (joinStep cur p) (joinStep_ne_nil (fun hc => absurd hc hcur))
        (fun x hx => hu x (by simp [hx])) (fun x hx => hv x (by simp [hx])) h4
      rw [h5]

theorem joinFrom_nil_inj :
    ∀ (u v : List Str), (∀ s ∈ u, slashFree s) → (∀ s ∈ v, slashFree s) →
      u.head? ≠ some [] → v.head? ≠ some [] →
      joinFrom [] u = joinFrom [] v → u = v := by
  intro u v hu hv hhu hhv h
  cases u with
  | nil =>
    cases v with
    | nil => rfl
    | cons q v2 =>
      have hq : q ≠ [] := fun hc => hhv (by simp [hc])
      obtain ⟨t, ht, _⟩ := joinFrom_shape v2 q hq
      rw [joinFrom_cons, show joinStep [] q = q from by simp [joinStep], ht] at h
      have : ([] : Str) = q ++ t := h
      rcases q with _ | ⟨c, q2⟩
      · exact absurd rfl hq
      · simp at this
  | cons p u2 =>
    cases v with
    | nil =>
      have hp : p ≠ [] := fun hc => hhu (by simp [hc])
      obtain ⟨t, ht, _⟩ := joinFrom_shape u2 p hp
      rw [joinFrom_cons, show joinStep [] p = p from by simp [joinStep], ht] at h
      have : p ++ t = ([] : Str) := h
      rcases p with _ | ⟨c, p2⟩
      · exact absurd rfl hp
      · simp at this
    | cons q v2 =>
      have hp : p ≠ [] := fun hc => hhu (by simp [hc])
      have hq : q ≠ [] := fun hc => hhv (by simp [hc])
      obtain ⟨t, ht, hts⟩ := joinFrom_shape u2 p hp
      obtain ⟨s, hs, hss⟩ := joinFrom_shape v2 q hq
      rw [joinFrom_cons, joinFrom_cons, show joinStep [] p = p from by simp [joinStep],
        show joinStep [] q = q from by simp [joinStep], ht, hs] at h
      obtain ⟨hpq, hts2⟩ := seg_slash_eq (hu p (by simp)) (hv q (by simp)) hts hss h
      subst hpq
      have h4 : joinFrom (joinStep [] p) u2 = joinFrom (joinStep [] p) v2 := by
        rw [show joinStep [] p = p from by simp [joinStep], ht, hs, hts2]
      have h5 := joinFrom_inj_aux u2 v2 (joinStep [] p)
        (joinStep_ne_nil (fun _ => hp))
        (fun x hx => hu x (by simp [hx])) (fun x hx => hv x (by simp [hx])) h4
      rw [h5]

theorem midJoins_single (cur p : Str) : midJoins cur [p] = [] := by
  simp [midJoins]

theorem midJoins_cons {rest : List Str} (cur p : Str) (h : rest ≠ []) :
    midJoins cur (p :: rest) =
      joinStep cur p :: midJoins (joinStep cur p) rest := by
  unfold midJoins
  have hlen : (p :: rest).length - 1 = (rest.length - 1) + 1 := by
    rcases rest with _ | ⟨x, xs⟩
    · exact absurd rfl h
    · simp
  rw [hlen, List.range_succ_eq_map, List.map_cons, List.map_map]
  refine congrArg₂ _ ?_ ?_
  · show joinFrom cur ((p :: rest).take 1) = joinStep cur p
    rfl
  · refine List.map_congr_left ?_
    intro i _
    show joinFrom cur ((p :: rest).take (i + 1 + 1)) =
      joinFrom (joinStep cur p) (rest.take (i + 1))
    rw [List.take_succ_cons, joinFrom_cons]

theorem mem_midJoins {cur p : Str} {segs : List Str} :
    p ∈ midJoins cur segs ↔
      ∃ i, i + 1 < segs.length ∧ p = joinFrom cur (segs.take (i + 1)) := by
  unfold midJoins
  rw [List.mem_map]
  constructor
  · rintro ⟨i, hi, rfl⟩
    rw [List.mem_range] at hi
    exact ⟨i, by omega, rfl⟩
  · rintro ⟨i, hi, rfl⟩
    exact ⟨i, List.mem_range.mpr (by omega), rfl⟩

theorem filePathsL_append (l1 l2 : List TreeNode) :
    filePathsL (l1 ++ l2) = filePathsL l1 ++ filePathsL l2 := by
  induction l1 with
  | nil => simp [filePathsL]
  | cons n ns ih =>
    cases n with
    | mk p t sz md c =>
      cases c with
      | none => simp [filePathsL, ih]
      | some cs => simp [filePathsL, ih]

theorem dirPathsL_append (l1 l2 : List TreeNode) :
    dirPathsL (l1 ++ l2) = dirPathsL l1 ++ dirPathsL l2 := by
  induction l1 with
  | nil => simp [dirPathsL]
  | cons n ns ih =>
    cases n with
    | mk p t sz md c =>
      cases c with
      | none => simp [dirPathsL, ih]
      | some cs => simp [dirPathsL, ih]

theorem tyFile_ne_tyDirectory : tyFile ≠ tyDirectory := by decide

theorem filePathsL_file_cons (p : Str) (sz : Option Nat) (md : Option Str)
    (ns : List TreeNode) :
    filePathsL (TreeNode.mk p tyFile sz md none :: ns) = p :: filePathsL ns := by
  simp [filePathsL]

theorem filePathsL_dir_cons (p : Str) (sz : Option Nat) (md : Option Str)
    (cs ns : List TreeNode) :
    filePathsL (TreeNode.mk p tyDirectory sz md (some cs) :: ns) =
      filePathsL cs ++ filePathsL ns := by
  have hdef : filePathsL (TreeNode.mk p tyDirectory sz md (some cs) :: ns) =
      (if tyDirectory = tyFile then [p] else []) ++ (filePathsL cs ++ filePathsL ns) := by
    simp [filePathsL]
  rw [hdef, if_neg (fun hc => tyFile_ne_tyDirectory hc.symm), List.nil_append]

theorem dirPathsL_file_cons (p : Str) (sz : Option Nat) (md : Option Str)
    (ns : List TreeNode) :
    dirPathsL (TreeNode.mk p tyFile sz md none :: ns) = dirPathsL ns := by
  have hdef : dirPathsL (TreeNode.mk p tyFile sz md none :: ns) =
      (if tyFile = tyDirectory then [p] else []) ++ dirPathsL ns := by
    simp [dirPathsL]
  rw [hdef, if_neg tyFile_ne_tyDirectory, List.nil_append]

theorem dirPathsL_dir_cons (p : Str) (sz : Option Nat) (md : Option Str)
    (cs ns : List TreeNode) :
    dirPathsL (TreeNode.mk p tyDirectory sz md (some cs) :: ns) =
      p :: (dirPathsL cs ++ dirPathsL ns) := by
  simp [dirPathsL]

theorem CleanLevel_mem_node {cur : Str} {level : List TreeNode} {n : TreeNode}
    (h : CleanLevel cur level) (hm : n ∈ level) : CleanNode cur n := by
  induction level with
  | nil => simp at hm
  | cons x xs ih =>
    cases h with
    | cons _ _ _ hx hxs hdist =>
      rcases List.mem_cons.mp hm with rfl | hm
      · exact hx
      · exact ih hxs hm

theorem CleanLevel_replace_middle {cur : Str} {l1 l2 : List TreeNode} {n n' : TreeNode}
    (h : CleanLevel cur (l1 ++ n :: l2)) (hn' : CleanNode cur n') (hp : n'.path = n.path) :
    CleanLevel cur (l1 ++ n' :: l2) := by
  induction l1 with
  | nil =>
    cases h with
    | cons _ _ _ hx hxs hdist =>
      exact CleanLevel.cons cur n' l2 hn' hxs (fun m hm => by rw [hp]; exact hdist m hm)
  | cons x xs ih =>
    cases h with
    | cons _ _ _ hx hxs hdist =>
      refine CleanLevel.cons cur x (xs ++ n' :: l2) hx (ih hxs) ?_
      intro m hm
      rcases List.mem_append.mp hm with hm | hm
      · exact hdist m (List.mem_append_left _ hm)
      · rcases List.mem_cons.mp hm with rfl | hm
        · rw [hp]
          exact hdist n (List.mem_append_right _ (by simp))
        · exact hdist m (List.mem_append_right _ (by simp [hm]))

theorem CleanLevel_append_singleton {cur : Str} {level : List TreeNode} {n : TreeNode}
    (h : CleanLevel cur level) (hn : CleanNode cur n)
    (hdist : ∀ m ∈ level, m.path ≠ n.path) :
    CleanLevel cur (level ++ [n]) := by
  induction level with
  | nil => exact CleanLevel.cons cur n [] hn (CleanLevel.nil cur) (by simp)
  | cons x xs ih =>
    cases h with
    | cons _ _ _ hx hxs hd =>
      refine CleanLevel.cons cur x (xs ++ [n]) hx
        (ih hxs (fun m hm => hdist m (by simp [hm]))) ?_
      intro m hm
      rcases List.mem_append.mp hm with hm | hm
      · exact hd m hm
      · rcases List.mem_singleton.mp hm with rfl
        exact fun hc => hdist x (by simp) hc.symm

theorem CleanLevel_append_left {cur : Str} :
    ∀ {a b : List TreeNode}, CleanLevel cur (a ++ b) → CleanLevel cur a := by
  intro a
  induction a with
  | nil => intro b _; exact CleanLevel.nil cur
  | cons x xs ih =>
    intro b h
    cases h with
    | cons _ _ _ hx hxs hdist =>
      exact CleanLevel.cons cur x xs hx (ih hxs)
        (fun m hm => hdist m (List.mem_append_left _ hm))

theorem CleanLevel_append_right {cur : Str} :
    ∀ {a b : List TreeNode}, CleanLevel cur (a ++ b) → CleanLevel cur b := by
  intro a
  induction a with
  | nil => intro b h; exact h
  | cons x xs ih =>
    intro b h
    cases h with
    | cons _ _ _ hx hxs hdist => exact ih hxs

theorem CleanLevel_distinct_after {cur : Str} :
    ∀ (l1 : List TreeNode) {n : TreeNode} {l2 : List TreeNode},
      CleanLevel cur (l1 ++ n :: l2) → ∀ m ∈ l2, m.path ≠ n.path := by
  intro l1
  induction l1 with
  | nil =>
    intro n l2 h m hm
    cases h with
    | cons _ _ _ hx hxs hdist => exact hdist m hm
  | cons x xs ih =>
    intro n l2 h m hm
    cases h with
    | cons _ _ _ hx hxs hdist => exact ih hxs m hm

theorem CleanNode_shape {cur : Str} {n : TreeNode} (h : CleanNode cur n) :
    ∃ s, slashFree s ∧ (cur = [] → s ≠ []) ∧ n.path = joinStep cur s := by
  cases h with
  | file cur seg sz md hsf hne => exact ⟨seg, hsf, hne, rfl⟩
  | dir cur seg cs hsf hne hcs => exact ⟨seg, hsf, hne, rfl⟩

theorem clean_paths_top :
    ∀ (N : Nat) (cur : Str) (lvl : List TreeNode), sizeOf lvl ≤ N →
      CleanLevel cur lvl → ∀ p, (p ∈ dirPathsL lvl ∨ p ∈ filePathsL lvl) →
      ∃ m ∈ lvl, p = m.path ∨ ∃ t, p = m.path ++ '/' :: t := by
  intro N
  induction N with
  | zero =>
    intro cur lvl hsz h p hp
    cases lvl with
    | nil => simp [dirPathsL, filePathsL] at hp
    | cons x xs =>
      simp only [List.cons.sizeOf_spec] at hsz
      omega
  | succ N ih =>
    intro cur lvl hsz h p hp
    cases h with
    | nil => simp [dirPathsL, filePathsL] at hp
    | cons cur n ns hn hns hdist =>
      have hszn : sizeOf ns ≤ N := by
        simp only [List.cons.sizeOf_spec] at hsz
        have : 0 < sizeOf n := by
          cases n with
          | mk a b c d e =>
            simp only [TreeNode.mk.sizeOf_spec]
            omega
        omega
      cases hn with
      | file cur seg sz md hsf hne =>
        rw [dirPathsL_file_cons, filePathsL_file_cons] at hp
        rcases hp with hp | hp
        · obtain ⟨m, hm, hout⟩ := ih cur ns hszn hns p (Or.inl hp)
          exact ⟨m, by simp [hm], hout⟩
        · rcases List.mem_cons.mp hp with rfl | hp
          · exact ⟨TreeNode.mk (joinStep cur seg) tyFile (some sz) (some md) none,
              by simp, Or.inl rfl⟩
          · obtain ⟨m, hm, hout⟩ := ih cur ns hszn hns p (Or.inr hp)
            exact ⟨m, by simp [hm], hout⟩
      | dir cur seg cs hsf hne hcs =>
        have hszc : sizeOf cs ≤ N := by
          simp only [List.cons.sizeOf_spec, TreeNode.mk.sizeOf_spec,
            Option.some.sizeOf_spec] at hsz
          omega
        rw [dirPathsL_dir_cons, filePathsL_dir_cons] at hp
        have hXne : joinStep cur seg ≠ [] := joinStep_ne_nil hne
        have hsub : ∀ p2, (p2 ∈ dirPathsL cs ∨ p2 ∈ filePathsL cs) →
            ∃ t, p2 = joinStep cur seg ++ '/' :: t := by
          intro p2 hp2
          obtain ⟨m, hm, hout⟩ := ih (joinStep cur seg) cs hszc hcs p2 hp2
          obtain ⟨sm, hsfm, hnem, hpm⟩ := CleanNode_shape (CleanLevel_mem_node hcs hm)
          have hstep : joinStep (joinStep cur seg) sm = joinStep cur seg ++ '/' :: sm := by
            show (if joinStep cur seg = [] then sm else joinStep cur seg ++ '/' :: sm) =
              joinStep cur seg ++ '/' :: sm
            rw [if_neg hXne]
          rcases hout with rfl | ⟨t, rfl⟩
          · exact ⟨sm, by rw [hpm, hstep]⟩
          · exact ⟨sm ++ '/' :: t, by rw [hpm, hstep, List.append_assoc]; rfl⟩
        rcases hp with hp | hp
        · rcases List.mem_cons.mp hp with rfl | hp
          · exact ⟨TreeNode.mk (joinStep cur seg) tyDirectory none none (some cs),
              by simp, Or.inl rfl⟩
          · rcases List.mem_append.mp hp with hp | hp
            · obtain ⟨t, rfl⟩ := hsub p (Or.inl hp)
              exact ⟨TreeNode.mk (joinStep cur seg) tyDirectory none none (some cs),
                by simp, Or.inr ⟨t, rfl⟩⟩
            · obtain ⟨m, hm, hout⟩ := ih cur ns hszn hns p (Or.inl hp)
              exact ⟨m, by simp [hm], hout⟩
        · rcases List.mem_append.mp hp with hp | hp
          · obtain ⟨t, rfl⟩ := hsub p (Or.inr hp)
            exact ⟨TreeNode.mk (joinStep cur seg) tyDirectory none none (some cs),
              by simp, Or.inr ⟨t, rfl⟩⟩
          · obtain ⟨m, hm, hout⟩ := ih cur ns hszn hns p (Or.inr hp)
            exact ⟨m, by simp [hm], hout⟩

theorem CleanLevel_tail {cur : Str} {n : TreeNode} {ns : List TreeNode}
    (h : CleanLevel cur (n :: ns)) : CleanLevel cur ns := by
  cases h with
  | cons _ _ _ hx hxs hdist => exact hxs

theorem joinFrom_single (cur part : Str) : joinFrom cur [part] = joinStep cur part := rfl

/-- No path in a clean sibling forest whose top paths all avoid
`joinStep cur part` can equal that path or extend it below a separator. -/
theorem clean_disjoint_extension {cur part : Str} {lvl : List TreeNode} {ext : Str}
    (h : CleanLevel cur lvl) (hmis : ∀ m ∈ lvl, m.path ≠ joinStep cur part)
    (hsf : slashFree part)
    (hshape : ext = [] ∨ ∃ e2, ext = '/' :: e2)
    (hq : joinStep cur part ++ ext ∈ dirPathsL lvl ∨
      joinStep cur part ++ ext ∈ filePathsL lvl) : False := by
  obtain ⟨m, hm, hout⟩ := clean_paths_top (sizeOf lvl) cur lvl le_rfl h _ hq
  obtain ⟨sm, hsfm, hnem, hpm⟩ := CleanNode_shape (CleanLevel_mem_node h hm)
  rcases hout with hout | ⟨t, hout⟩
  · have h2 : joinStep cur sm ++ ([] : Str) = joinStep cur part ++ ext := by
      rw [List.append_nil, ← hpm, hout]
    obtain ⟨hseg, _⟩ := seg_slash_eq hsfm hsf (Or.inl rfl) hshape (joinStep_ext_eq h2)
    exact hmis m hm (by rw [hpm, hseg])
  · have h2 : joinStep cur sm ++ '/' :: t = joinStep cur part ++ ext := by
      rw [← hpm, ← hout]
    obtain ⟨hseg, _⟩ := seg_slash_eq hsfm hsf (Or.inr ⟨t, rfl⟩) hshape
      (joinStep_ext_eq h2)
    exact hmis m hm (by rw [hpm, hseg])

theorem mem_midJoins_ext {P : Str} (hP : P ≠ []) {rest : List Str} {p : Str}
    (h : p ∈ midJoins P rest) : ∃ t, p = P ++ '/' :: t := by
  obtain ⟨i, hi, rfl⟩ := mem_midJoins.mp h
  have hlen : (rest.take (i + 1)).length = i + 1 := by
    rw [List.length_take]
    omega
  have hne : rest.take (i + 1) ≠ [] := by
    intro hc
    rw [hc] at hlen
    simp at hlen
  exact joinFrom_ext_ne hP hne

theorem not_self_mem_midJoins {P : Str} (hP : P ≠ []) (rest : List Str) :
    P ∉ midJoins P rest := by
  intro h
  obtain ⟨t, ht⟩ := mem_midJoins_ext hP h
  have : P.length = (P ++ '/' :: t).length := by rw [← ht]
  simp at this

theorem count_zero_of_not_mem {p : Str} {l : List Str} (h : p ∉ l) : l.count p = 0 :=
  List.count_eq_zero.mpr h

/-- Inserting one fresh, non-directory-typed record path into a clean sibling
forest keeps it clean, adds exactly one file path (the full cumulative join),
and adds each intermediate cumulative join as a directory path exactly when it
was not present yet. -/
theorem clean_insert (f : FileRecord) (hft : ¬ f.type = tyDirectory) :
    ∀ (ps : List Str), ps ≠ [] →
    ∀ (cur : Str) (level : List TreeNode),
      CleanLevel cur level →
      (∀ s ∈ ps, slashFree s) → (cur = [] → ps.head? ≠ some []) →
      (∀ q, q ≠ [] → q <+: ps → joinFrom cur q ∉ filePathsL level) →
      joinFrom cur ps ∉ dirPathsL level →
      CleanLevel cur (processParts f ps cur level) ∧
      (∀ p, (filePathsL (processParts f ps cur level)).count p =
        (filePathsL level).count p + (if p = joinFrom cur ps then 1 else 0)) ∧
      (∀ p, (dirPathsL (processParts f ps cur level)).count p =
        (dirPathsL level).count p +
          (if p ∈ midJoins cur ps ∧ p ∉ dirPathsL level then 1 else 0)) := by
  intro ps
  induction ps with
  | nil => intro h; exact absurd rfl h
  | cons part rest ih =>
    intro _ cur level hcln hsf hhead hfile hfin
    have hsfp : slashFree part := hsf part (by simp)
    have hnep : cur = [] → part ≠ [] := by
      intro hc hc2
      exact hhead hc (by simp [hc2])
    have hPne : joinStep cur part ≠ [] := joinStep_ne_nil hnep
    rw [processParts_cons]
    split
    next existing hfind =>
      obtain ⟨l1, l2, heq, hmis, hpth⟩ := find?_path_split hfind
      have hclex : CleanNode cur existing :=
        CleanLevel_mem_node hcln (by rw [heq]; simp)
      split
      next cs hch =>
        cases hclex with
        | file cur seg sz md hsf2 hne2 =>
          rw [show (TreeNode.mk (joinStep cur seg) tyFile (some sz) (some md)
            none).children = none from rfl] at hch
          simp at hch
        | dir cur seg cs2 hsf2 hne2 hcs2 =>
          rw [show (TreeNode.mk (joinStep cur seg) tyDirectory none none
            (some cs2)).children = some cs2 from rfl] at hch
          injection hch with hcs
          subst hcs
          have hsegeq : seg = part := joinStep_inj (by
            simpa only [TreeNode.path] using hpth)
          subst hsegeq
          have hrest : rest ≠ [] := by
            intro hr
            subst hr
            apply hfin
            rw [joinFrom_single, heq, dirPathsL_append, dirPathsL_dir_cons]
            exact List.mem_append_right _ (by simp)
          have hfile2 : ∀ q, q ≠ [] → q <+: rest →
              joinFrom (joinStep cur seg) q ∉ filePathsL cs2 := by
            intro q hq hpre hmem
            refine hfile (seg :: q) (by simp) ?_ ?_
            · obtain ⟨t, ht⟩ := hpre
              exact ⟨t, by rw [List.cons_append, ht]⟩
            · rw [joinFrom_cons, heq, filePathsL_append, filePathsL_dir_cons]
              exact List.mem_append_right _ (List.mem_append_left _ hmem)
          have hfin2 : joinFrom (joinStep cur seg) rest ∉ dirPathsL cs2 := by
            intro hmem
            apply hfin
            rw [joinFrom_cons, heq, dirPathsL_append, dirPathsL_dir_cons]
            exact List.mem_append_right _
              (List.mem_cons_of_mem _ (List.mem_append_left _ hmem))
          obtain ⟨ihc, ihfp, ihdp⟩ := ih hrest (joinStep cur seg) cs2 hcs2
            (fun s hs => hsf s (by simp [hs]))
            (fun hc => absurd hc hPne)
            hfile2 hfin2
          rw [heq, replaceFirst_split l2 _ hmis hpth]
          simp only [TreeNode.path, TreeNode.type, TreeNode.size, TreeNode.modified]
          have hcl0 : CleanLevel cur (l1 ++ TreeNode.mk (joinStep cur seg) tyDirectory
              none none (some cs2) :: l2) := heq ▸ hcln
          have hcll1 : CleanLevel cur l1 := CleanLevel_append_left hcl0
          have hcll2 : CleanLevel cur l2 :=
            CleanLevel_tail (CleanLevel_append_right hcl0)
          have hmis2 : ∀ m ∈ l2, m.path ≠ joinStep cur seg := by
            intro m hm hc
            exact CleanLevel_distinct_after l1 hcl0 m hm (hc.trans hpth.symm)
          refine ⟨?_, ?_, ?_⟩
          · exact CleanLevel_replace_middle hcl0
              (CleanNode.dir cur seg _ hsfp hnep ihc) rfl
          · intro p
            rw [filePathsL_append, filePathsL_append, filePathsL_dir_cons,
              filePathsL_dir_cons, joinFrom_cons]
            rw [List.count_append, List.count_append, List.count_append,
              List.count_append, ihfp p]
            omega
          · intro p
            rw [dirPathsL_append, dirPathsL_append, dirPathsL_dir_cons,
              dirPathsL_dir_cons, midJoins_cons cur seg hrest]
            by_cases hpP : p = joinStep cur seg
            · subst hpP
              have hnm := not_self_mem_midJoins hPne rest
              have hc3 : (dirPathsL (processParts f rest (joinStep cur seg) cs2)).count
                  (joinStep cur seg) = (dirPathsL cs2).count (joinStep cur seg) := by
                rw [ihdp _]
                simp [hnm]
              have hmem : joinStep cur seg ∈ dirPathsL l1 ++
                  (joinStep cur seg :: (dirPathsL cs2 ++ dirPathsL l2)) :=
                List.mem_append_right _ (by simp)
              rw [if_neg (fun hc => hc.2 hmem)]
              rw [List.count_append, List.count_append, List.count_cons_self,
                List.count_cons_self, List.count_append, List.count_append, hc3]
              omega
            · have hAB : (p ∈ midJoins (joinStep cur seg) rest ∧ p ∉ dirPathsL cs2) ↔
                  ((p ∈ joinStep cur seg :: midJoins (joinStep cur seg) rest) ∧
                    p ∉ (dirPathsL l1 ++
                      (joinStep cur seg :: (dirPathsL cs2 ++ dirPathsL l2)))) := by
                constructor
                · rintro ⟨hmj, hnotc⟩
                  obtain ⟨tp, htp⟩ := mem_midJoins_ext hPne hmj
                  refine ⟨by simp [hmj], ?_⟩
                  intro hmem
                  rcases List.mem_append.mp hmem with hm1 | hm2
                  · exact clean_disjoint_extension hcll1 hmis hsfp
                      (Or.inr ⟨tp, rfl⟩) (Or.inl (htp ▸ hm1))
                  · rcases List.mem_cons.mp hm2 with hm3 | hm3
                    · exact hpP hm3
                    · rcases List.mem_append.mp hm3 with hm4 | hm4
                      · exact hnotc hm4
                      · exact clean_disjoint_extension hcll2 hmis2 hsfp
                          (Or.inr ⟨tp, rfl⟩) (Or.inl (htp ▸ hm4))
                · rintro ⟨hmj, hnot⟩
                  have hmj2 : p ∈ midJoins (joinStep cur seg) rest := by
                    rcases List.mem_cons.mp hmj with h2 | h2
                    · exact absurd h2 hpP
                    · exact h2
                  exact ⟨hmj2, fun hc => hnot (List.mem_append_right _
                    (List.mem_cons_of_mem _ (List.mem_append_left _ hc)))⟩
              rw [List.count_append, List.count_append, List.count_cons_of_ne hpP,
                List.count_cons_of_ne hpP, List.count_append, List.count_append,
                ihdp p, if_congr hAB rfl rfl]
              omega
      next hch =>
        cases hclex with
        | file cur seg sz md hsf2 hne2 =>
          have hsegeq : seg = part := joinStep_inj (by
            simpa only [TreeNode.path] using hpth)
          subst hsegeq
          exact absurd (show joinFrom cur [seg] ∈ filePathsL level from by
            rw [joinFrom_single, heq, filePathsL_append, filePathsL_file_cons]
            exact List.mem_append_right _ (by simp))
            (hfile [seg] (by simp) ⟨rest, rfl⟩)
        | dir cur seg cs2 hsf2 hne2 hcs2 =>
          rw [show (TreeNode.mk (joinStep cur seg) tyDirectory none none
            (some cs2)).children = some cs2 from rfl] at hch
          simp at hch
    next hfind =>
      have hmisall : ∀ m ∈ level, m.path ≠ joinStep cur part := by
        intro m hm
        have := List.find?_eq_none.mp hfind m hm
        simpa using this
      have hnodir : joinStep cur part ∉ dirPathsL level := by
        intro hmem
        exact clean_disjoint_extension hcln hmisall hsfp (Or.inl rfl)
          (Or.inl (by simpa using hmem))
      by_cases hrest : rest = []
      · subst hrest
        have hcond : ((([] : List Str) = [] : Bool) && !(f.type = tyDirectory)) = true := by
          simp [hft]
        rw [if_pos hcond]
        rw [show processParts f [] (joinStep cur part)
            (level ++ [TreeNode.mk (joinStep cur part) tyFile (some f.size)
              (some f.modified) none]) =
          level ++ [TreeNode.mk (joinStep cur part) tyFile (some f.size)
            (some f.modified) none] from rfl]
        refine ⟨?_, ?_, ?_⟩
        · exact CleanLevel_append_singleton hcln
            (CleanNode.file cur part f.size f.modified hsfp hnep) hmisall
        · intro p
          rw [filePathsL_append, filePathsL_file_cons, joinFrom_single,
            List.count_append]
          have hnil : filePathsL ([] : List TreeNode) = [] := by simp [filePathsL]
          rw [hnil, List.count_cons]
          by_cases hp : p = joinStep cur part
          · simp [hp]
          · simp [hp, Ne.symm hp]
        · intro p
          rw [dirPathsL_append, dirPathsL_file_cons, midJoins_single,
            List.count_append]
          simp [dirPathsL]
      · have hcond : (((rest = []) : Bool) && !(f.type = tyDirectory)) = false := by
          simp [hrest]
        rw [hcond]
        simp only [Bool.false_eq_true, if_false]
        rw [if_neg hrest, if_neg hrest]
        obtain ⟨ihc, ihfp, ihdp⟩ := ih hrest (joinStep cur part) [] (CleanLevel.nil _)
          (fun s hs => hsf s (by simp [hs]))
          (fun hc => absurd hc hPne)
          (fun q hq hpre => by simp [filePathsL])
          (by simp [dirPathsL])
        refine ⟨?_, ?_, ?_⟩
        · exact CleanLevel_append_singleton hcln
            (CleanNode.dir cur part _ hsfp hnep ihc) hmisall
        · intro p
          rw [filePathsL_append, filePathsL_dir_cons, joinFrom_cons,
            List.count_append, List.count_append, ihfp p]
          simp [filePathsL]
        · intro p
          rw [dirPathsL_append, dirPathsL_dir_cons, midJoins_cons cur part hrest]
          by_cases hpP : p = joinStep cur part
          · subst hpP
            have hnm := not_self_mem_midJoins hPne rest
            have hc3 : (dirPathsL (processParts f rest (joinStep cur part) [])).count
                (joinStep cur part) = 0 := by
              rw [ihdp _]
              simp [dirPathsL, hnm]
            rw [if_pos ⟨by simp, hnodir⟩]
            rw [List.count_append, List.count_cons_self, List.count_append, hc3,
              count_zero_of_not_mem hnodir]
            simp [dirPathsL]
          · have hdpc : (dirPathsL (processParts f rest (joinStep cur part) [])).count p =
                if p ∈ midJoins (joinStep cur part) rest then 1 else 0 := by
              rw [ihdp p]
              simp [dirPathsL]
            have hext : p ∈ midJoins (joinStep cur part) rest → p ∉ dirPathsL level := by
              intro hmj hmem
              obtain ⟨tp, htp⟩ := mem_midJoins_ext hPne hmj
              exact clean_disjoint_extension hcln hmisall hsfp (Or.inr ⟨tp, rfl⟩)
                (Or.inl (htp ▸ hmem))
            rw [List.count_append, List.count_cons_of_ne hpP, List.count_append, hdpc]
            by_cases hmj : p ∈ midJoins (joinStep cur part) rest
            · rw [if_pos hmj, if_pos ⟨by simp [hmj], hext hmj⟩]
              simp [dirPathsL]
            · rw [if_neg hmj, if_neg (fun hc => by
                rcases List.mem_cons.mp hc.1 with h1 | h1
                · exact hpP h1
                · exact hmj h1)]
              simp [dirPathsL]

/-- Folding `processParts` over a record list, starting from a clean forest
whose file paths are exactly the joins of the already-processed records
`done` and whose directory paths are exactly their intermediate joins (each
once), extends both exact descriptions to `done ++ records`. -/
theorem clean_fold_aux :
    ∀ (records done : List FileRecord) (tree : List TreeNode),
      (∀ r ∈ done ++ records, ¬ r.type = tyDirectory) →
      (∀ r ∈ done ++ records, (pathSegs r.path).head? ≠ some []) →
      List.Pairwise (fun a b => ¬ pathSegs a.path <+: pathSegs b.path ∧
        ¬ pathSegs b.path <+: pathSegs a.path) (done ++ records) →
      CleanLevel [] tree →
      (∀ p, (filePathsL tree).count p =
        (done.map (fun r => joinFrom [] (pathSegs r.path))).count p) →
      (∀ p, (dirPathsL tree).count p =
        if (∃ r ∈ done, p ∈ midJoins [] (pathSegs r.path)) then 1 else 0) →
      CleanLevel [] (records.foldl
          (fun tree file => processParts file (splitOnChar '/' file.path) [] tree) tree) ∧
      (∀ p, (filePathsL (records.foldl
          (fun tree file => processParts file (splitOnChar '/' file.path) [] tree)
          tree)).count p =
        ((done ++ records).map (fun r => joinFrom [] (pathSegs r.path))).count p) ∧
      (∀ p, (dirPathsL (records.foldl
          (fun tree file => processParts file (splitOnChar '/' file.path) [] tree)
          tree)).count p =
        if (∃ r ∈ done ++ records, p ∈ midJoins [] (pathSegs r.path)) then 1 else 0) := by
  intro records
  induction records with
  | nil =>
    intro done tree hty hhead hpf hcln hfp hdp
    simp only [List.foldl_nil, List.append_nil]
    exact ⟨hcln, hfp, hdp⟩
  | cons r rs ih =>
    intro done tree hty hhead hpf hcln hfp hdp
    rw [List.foldl_cons]
    have hrtype : ¬ r.type = tyDirectory := hty r (by simp)
    have hSne : pathSegs r.path ≠ [] := splitOnChar_ne_nil '/' r.path
    have hSsf : ∀ s ∈ pathSegs r.path, slashFree s := fun s hs =>
      mem_splitOnChar_not_mem hs
    have hShead : ([] : Str) = [] → (pathSegs r.path).head? ≠ some [] :=
      fun _ => hhead r (by simp)
    have hfile0 : ∀ q, q ≠ [] → q <+: pathSegs r.path →
        joinFrom [] q ∉ filePathsL tree := by
      intro q hq hpre hmem
      have hcount : (filePathsL tree).count (joinFrom [] q) ≠ 0 := fun hc =>
        (List.count_eq_zero.mp hc) hmem
      rw [hfp _] at hcount
      have hmem2 : joinFrom [] q ∈ done.map (fun r => joinFrom [] (pathSegs r.path)) := by
        by_contra hc
        exact hcount (count_zero_of_not_mem hc)
      obtain ⟨r2, hr2, heq2⟩ := List.mem_map.mp hmem2
      have hqsf : ∀ s ∈ q, slashFree s := by
        intro s hs
        obtain ⟨t, ht⟩ := hpre
        exact hSsf s (by rw [← ht]; exact List.mem_append_left _ hs)
      have hqhead : q.head? ≠ some [] := by
        obtain ⟨t, ht⟩ := hpre
        cases q with
        | nil => exact absurd rfl hq
        | cons a q2 =>
          intro hc
          have ha : a = [] := by simpa using hc
          apply hhead r (by simp)
          rw [← ht, ha]
          rfl
      have hinj : pathSegs r2.path = q :=
        joinFrom_nil_inj _ _ (fun s hs => mem_splitOnChar_not_mem hs) hqsf
          (hhead r2 (by simp [hr2])) hqhead heq2
      have hpre2 : pathSegs r2.path <+: pathSegs r.path := by
        rw [hinj]
        exact hpre
      have hrel := (List.pairwise_append.mp hpf).2.2 r2 hr2 r (by simp)
      exact hrel.1 hpre2
    have hfin0 : joinFrom [] (pathSegs r.path) ∉ dirPathsL tree := by
      intro hmem
      have hcount : (dirPathsL tree).count (joinFrom [] (pathSegs r.path)) ≠ 0 :=
        fun hc => (List.count_eq_zero.mp hc) hmem
      rw [hdp _] at hcount
      by_cases hex : ∃ r2 ∈ done,
          joinFrom [] (pathSegs r.path) ∈ midJoins [] (pathSegs r2.path)
      · obtain ⟨r2, hr2, hmj⟩ := hex
        obtain ⟨i, hi, heq2⟩ := mem_midJoins.mp hmj
        have htksf : ∀ s ∈ (pathSegs r2.path).take (i + 1), slashFree s := fun s hs =>
          mem_splitOnChar_not_mem (List.mem_of_mem_take hs)
        have htkhead : ((pathSegs r2.path).take (i + 1)).head? ≠ some [] := by
          rcases hS2 : pathSegs r2.path with _ | ⟨a, s2⟩
          · exact absurd hS2 (splitOnChar_ne_nil '/' r2.path)
          · rw [List.take_succ_cons]
            intro hc
            have ha : a = [] := by simpa using hc
            apply hhead r2 (by simp [hr2])
            rw [hS2, ha]
            rfl
        have hinj : pathSegs r.path = (pathSegs r2.path).take (i + 1) :=
          joinFrom_nil_inj _ _ hSsf htksf (hhead r (by simp)) htkhead heq2
        have hpre2 : pathSegs r.path <+: pathSegs r2.path := by
          rw [hinj]
          exact ⟨(pathSegs r2.path).drop (i + 1), List.take_append_drop _ _⟩
        have hrel := (List.pairwise_append.mp hpf).2.2 r2 hr2 r (by simp)
        exact hrel.2 hpre2
      · rw [if_neg hex] at hcount
        exact hcount rfl
    obtain ⟨c1, c2, c3⟩ := clean_insert r hrtype (pathSegs r.path) hSne [] tree hcln
      hSsf hShead hfile0 hfin0
    have hassoc : done ++ r :: rs = (done ++ [r]) ++ rs := by simp
    obtain ⟨d1, d2, d3⟩ := ih (done ++ [r])
      (processParts r (splitOnChar '/' r.path) [] tree)
      (by rw [← hassoc]; exact hty)
      (by rw [← hassoc]; exact hhead)
      (by rw [← hassoc]; exact hpf)
      c1
      (by
        intro p
        rw [show splitOnChar '/' r.path = pathSegs r.path from rfl]
        rw [c2 p, hfp p, List.map_append, List.count_append]
        by_cases hp : p = joinFrom [] (pathSegs r.path)
        · simp [hp]
        · simp [hp, Ne.symm hp])
      (by
        intro p
        rw [show splitOnChar '/' r.path = pathSegs r.path from rfl]
        rw [c3 p, hdp p]
        by_cases hex : ∃ r2 ∈ done, p ∈ midJoins [] (pathSegs r2.path)
        · have hmemtree : p ∈ dirPathsL tree := by
            by_contra hc
            have h0 := count_zero_of_not_mem hc
            rw [hdp p, if_pos hex] at h0
            simp at h0
          obtain ⟨r2, hr2, hmj2⟩ := hex
          rw [if_pos ⟨r2, hr2, hmj2⟩, if_neg (fun hc => hc.2 hmemtree),
            if_pos ⟨r2, by simp [hr2], hmj2⟩]
        · have hnmem : p ∉ dirPathsL tree := by
            intro hc
            have h0 : (dirPathsL tree).count p = 0 := by rw [hdp p, if_neg hex]
            exact (List.count_eq_zero.mp h0) hc
          rw [if_neg hex]
          by_cases hmj : p ∈ midJoins [] (pathSegs r.path)
          · rw [if_pos ⟨hmj, hnmem⟩, if_pos ⟨r, by simp, hmj⟩]
          · rw [if_neg (fun hc => hmj hc.1), if_neg (fun hc => by
              obtain ⟨r2, hr2, hmj2⟩ := hc
              rcases List.mem_append.mp hr2 with h4 | h4
              · exact hex ⟨r2, h4, hmj2⟩
              · rw [List.mem_singleton.mp h4] at hmj2
                exact hmj hmj2)])
    refine ⟨d1, ?_, ?_⟩
    · intro p
      rw [hassoc]
      exact d2 p
    · intro p
      rw [hassoc]
      exact d3 p

/-- Claim C2 as literally stated is false: the leaf count of the built tree
need not equal the input record count. Two records carrying the same path
`"a"` collapse onto a single file node (the second walk finds the existing
node), so the leaf count is 1 while the sequence has 2 records. -/
theorem buildTree_counts_counterexample :
    ¬ (leafCount (buildTreeFromFiles
        [{ path := strL ("a"), type := strL ("file"), size := 1, modified := strL ("m") },
         { path := strL ("a"), type := strL ("file"), size := 1, modified := strL ("m") }]) =
      ([{ path := strL ("a"), type := strL ("file"), size := 1, modified := strL ("m") },
        { path := strL ("a"), type := strL ("file"), size := 1, modified := strL ("m") }] :
        List FileRecord).length) := by
  have h1 : leafCount (buildTreeFromFiles
      [{ path := strL ("a"), type := strL ("file"), size := 1, modified := strL ("m") },
       { path := strL ("a"), type := strL ("file"), size := 1, modified := strL ("m") }]) = 1 := by
    simp [leafCount, buildTreeFromFiles, processParts, splitOnChar, joinStep,
      filePathsL, strL, tyFile, tyDirectory, replaceFirst, TreeNode.path,
      TreeNode.type, TreeNode.size, TreeNode.modified, TreeNode.children]
  rw [h1]
  decide

theorem length_eq_of_count_eq :
    ∀ (l1 l2 : List Str), (∀ p, l1.count p = l2.count p) → l1.length = l2.length := by
  intro l1
  induction l1 with
  | nil =>
    intro l2 h
    cases l2 with
    | nil => rfl
    | cons x xs =>
      have hx := h x
      rw [List.count_cons_self] at hx
      simp at hx
  | cons a l1 ih =>
    intro l2 h
    have hmem : a ∈ l2 := by
      by_contra hc
      have h0 := count_zero_of_not_mem hc
      have ha := h a
      rw [List.count_cons_self, h0] at ha
      omega
    obtain ⟨u, v, rfl⟩ := List.append_of_mem hmem
    have h2 : ∀ p, l1.count p = (u ++ v).count p := by
      intro p
      have hp := h p
      rw [List.count_cons, List.count_append, List.count_cons] at hp
      rw [List.count_append]
      omega
    have h3 := ih (u ++ v) h2
    rw [List.length_append] at h3
    simp only [List.length_append, List.length_cons]
    omega

/-- Claim C2 (amended): for records that are not directory-typed, whose
slash-split paths have a nonempty first segment, and whose segment sequences
are pairwise non-nested (neither is a prefix of the other, which also rules
out duplicates), the leaf (file-typed-node) count of the built tree equals the
record count, and every nonempty proper prefix of any record's segment
sequence — every intermediate directory it references — occurs exactly once
among the tree's directory-typed node paths. -/
theorem buildTree_counts (records : List FileRecord)
    (hty : ∀ r ∈ records, ¬ r.type = tyDirectory)
    (hhead : ∀ r ∈ records, (pathSegs r.path).head? ≠ some [])
    (hpf : List.Pairwise (fun a b => ¬ pathSegs a.path <+: pathSegs b.path ∧
      ¬ pathSegs b.path <+: pathSegs a.path) records) :
    leafCount (buildTreeFromFiles records) = records.length ∧
    ∀ r ∈ records, ∀ q, q ≠ [] → q <+: pathSegs r.path → q ≠ pathSegs r.path →
      (dirPathsL (buildTreeFromFiles records)).count (joinFrom [] q) = 1 := by
  obtain ⟨c1, c2, c3⟩ := clean_fold_aux records [] []
    (by simpa using hty) (by simpa using hhead) (by simpa using hpf)
    (CleanLevel.nil []) (by intro p; simp [filePathsL]) (by intro p; simp [dirPathsL])
  constructor
  · have hcnt : ∀ p, (filePathsL (List.foldl
        (fun tree file => processParts file (splitOnChar '/' file.path) [] tree)
        [] records)).count p =
        (records.map (fun r => joinFrom [] (pathSegs r.path))).count p := by
      intro p
      have h := c2 p
      rw [List.nil_append] at h
      exact h
    have h3 := length_eq_of_count_eq _ _ hcnt
    rw [List.length_map] at h3
    exact h3
  · intro r hr q hq hpre hne
    have h := c3 (joinFrom [] q)
    rw [List.nil_append] at h
    rw [show (dirPathsL (buildTreeFromFiles records)).count (joinFrom [] q) =
      List.count (joinFrom [] q) (dirPathsL (List.foldl
        (fun tree file => processParts file (splitOnChar '/' file.path) [] tree)
        [] records)) from rfl, h]
    obtain ⟨t, ht⟩ := hpre
    have htne : t ≠ [] := by
      intro hc
      rw [hc, List.append_nil] at ht
      exact hne ht
    have hql : 1 ≤ q.length := by
      rcases q with _ | ⟨a, q2⟩
      · exact absurd rfl hq
      · simp
    refine if_pos ⟨r, hr, mem_midJoins.mpr ⟨q.length - 1, ?_, ?_⟩⟩
    · rw [← ht, List.length_append]
      rcases t with _ | ⟨x, t2⟩
      · exact absurd rfl htne
      · simp
        omega
    · have hq1 : q.length - 1 + 1 = q.length := by omega
      rw [hq1, ← ht, List.take_left]

/-- Witness for the amended C2 at two concrete sibling records below one
shared directory. -/
theorem buildTree_counts_witness :
    leafCount (buildTreeFromFiles
      [{ path := strL ("a/b"), type := strL ("file"), size := 1, modified := strL ("m") },
       { path := strL ("a/c"), type := strL ("file"), size := 2, modified := strL ("n") }]) = 2 ∧
    (dirPathsL (buildTreeFromFiles
      [{ path := strL ("a/b"), type := strL ("file"), size := 1, modified := strL ("m") },
       { path := strL ("a/c"), type := strL ("file"), size := 2, modified := strL ("n") }])).count
      (strL ("a")) = 1 := by
  have h := buildTree_counts
    [{ path := strL ("a/b"), type := strL ("file"), size := 1, modified := strL ("m") },
     { path := strL ("a/c"), type := strL ("file"), size := 2, modified := strL ("n") }]
    (by decide) (by decide) (by decide)
  refine ⟨h.1.trans (by decide), ?_⟩
  have h2 := h.2
    { path := strL ("a/b"), type := strL ("file"), size := 1, modified := strL ("m") }
    (by simp) [strL ("a")] (by decide) (by decide) (by decide)
  exact h2

end DirMon
